import Mathlib

/-!
pwords.c : a word-frequency counter over a sorted linked list

Shallow embedding of `src/pwords.c`.

* A byte of the input stream (the value `fgetc` returns before `EOF`) is a `Nat`.
* The input stream `FILE *infile` is the list of bytes not yet read; `fgetc` takes the head,
  and yields `EOF` on the empty list.
* A C string is represented by the bytes before its terminator; a buffer (`char buf[]`) is a
  list of bytes, stores are `List.set`, and the string held by a buffer is read by `c_str`.
* The linked list `dict_t *` is a `List dict_t`, the `next` pointer being the tail; in the
  sequential functions the shared dictionary is represented by the list that its field `wd`
  heads.
* `int count` is an `Int` with the increment wrapping at 32 bits.
* The sequential functions (`get_word`, `insert_word`, `words`) leave out the mutexes and the
  `printf` calls of the worker and take `mymalloc` to succeed. The same functions with their
  lock operations and buffer stores recorded (`get_word_tr`, `insert_word_tr`, `words_tr`),
  the steps of several threads in `insert_word` (`thread_step`, `sys_run`), and `insert_word`
  with a failing `mymalloc` (`insert_word_res`) are given after them and related to them.
-/

namespace PWords

/-! ## Library functions used by the program -/

/-- The `isalpha` test of `<ctype.h>` in the "C" locale (the program never sets a locale):
the ASCII letters `A`..`Z` and `a`..`z`. -/
def isalpha (c : Nat) : Bool :=
  (65 ≤ c && c ≤ 90) || (97 ≤ c && c ≤ 122)

/-- The `strcmp` of `<string.h>` on the contents of two C strings: byte-wise lexicographic
comparison, a proper prefix being smaller. Only the sign of the result is specified by C;
the model returns `-1`, `0` or `1`. -/
def strcmp : List Nat → List Nat → Int
  | [], [] => 0
  | [], _ :: _ => -1
  | _ :: _, [] => 1
  | a :: as, b :: bs => if a < b then -1 else if b < a then 1 else strcmp as bs

/-- The C string held by a buffer: the bytes before the first NUL byte. This is what `printf`,
`strcmp`, `strlen` and `strcpy` read from a `char *`. -/
def c_str (buf : List Nat) : List Nat :=
  buf.takeWhile (fun b => b != 0)

/-- Conversion of a mathematical integer to the 32-bit `int` (wrapping modulo 2^32). -/
def int_wrap (x : Int) : Int :=
  (x + 2147483648) % 4294967296 - 2147483648

/-- The largest `int`. -/
def INT_MAX : Int := 2147483647

/-! ## Data model -/

/-- A dictionary node (`struct dict`); the `next` field is the tail of the list holding it. -/
structure dict_t where
  word : List Nat
  count : Int
  deriving DecidableEq, Repr

/-- The list headed by `sd->wd` (`NULL` is the empty list). -/
abbrev Dict := List dict_t

/-- The constant `MAXWORD`. -/
def MAXWORD : Nat := 1024

/-! ## The tokenizer -/

/-- The part of `get_word` after the `while` loop: a word is reported when `inword > 0`. -/
def get_word_exit (buf : List Nat) (inword : Nat) (infile : List Nat) :
    Int × List Nat × List Nat :=
  if inword > 0 then (1, buf.set inword 0, infile) else (0, buf, infile)

/-- The `while` loop of `get_word`. Each iteration first takes a character from the stream
(`fgetc`) and only then tests `inword < n`. The result is the return value, the buffer and
the remaining stream. -/
def get_word_loop (n : Int) : Nat → List Nat → List Nat → Int × List Nat × List Nat
  | inword, buf, [] => get_word_exit buf inword []
  | inword, buf, c :: infile =>
    if (inword : Int) < n then
      if inword ≠ 0 ∧ isalpha c = false then
        (1, buf.set inword 0, infile)
      else if isalpha c then
        get_word_loop n (inword + 1) (buf.set inword c) infile
      else
        get_word_loop n inword buf infile
    else
      get_word_exit buf inword infile

/-- The function `get_word( buf, n, infile )`: return value, buffer and remaining stream. -/
def get_word (buf : List Nat) (n : Int) (infile : List Nat) : Int × List Nat × List Nat :=
  get_word_loop n 0 buf infile

/-! ## The dictionary -/

/-- The function `make_word`: a fresh copy of the string. -/
def make_word (word : List Nat) : List Nat := word

/-- The function `make_dict`: a fresh node with count 1. -/
def make_dict (word : List Nat) : dict_t :=
  { word := make_word word, count := 1 }

/-- The function `insert_word`, on the list headed by `sd->wd`. The recursion follows the
`while` loop: `di` is the head of the list in hand and `pd` the node the recursion came from;
linking the new node after `pd` (or as the head) is the cons of the result. -/
def insert_word : Dict → List Nat → Dict
  | [], word => [make_dict word]
  | di :: next, word =>
    if strcmp word di.word ≥ 0 then
      if strcmp word di.word = 0 then
        { di with count := int_wrap (di.count + 1) } :: next
      else
        di :: insert_word next word
    else
      make_dict word :: di :: next

/-- The function `print_dict`: the arguments of the successive `printf` calls, in order. -/
def print_dict (d : Dict) : List (Int × List Nat) :=
  d.map (fun e => (e.count, e.word))

/-! ## The worker -/

/-- The `while` loop of `words`, with a bound on the number of iterations; `none` when the
bound is exhausted. The result is the dictionary, the buffer and the remaining stream. -/
def words_loop : Nat → Dict → List Nat → List Nat → Option (Dict × List Nat × List Nat)
  | 0, _, _, _ => none
  | fuel + 1, sd, wordbuf, infile =>
    match get_word wordbuf MAXWORD infile with
    | (r, wordbuf1, infile1) =>
      if r ≠ 0 then
        words_loop fuel (insert_word sd (c_str wordbuf1)) wordbuf1 infile1
      else
        some (sd, wordbuf1, infile1)

/-- The thread function `words`: the worker loop on a stream, started with a given content of
the local `wordbuf`. One iteration per character of the stream and one more always suffice
(theorem `words_loop_total`). -/
def words (sd : Dict) (wordbuf : List Nat) (infile : List Nat) :
    Option (Dict × List Nat × List Nat) :=
  words_loop (infile.length + 1) sd wordbuf infile

/-- The dictionary a worker leaves. -/
def words_dict (sd : Dict) (wordbuf : List Nat) (infile : List Nat) : Option Dict :=
  (words sd wordbuf infile).map (fun r => r.1)

/-! ## Notions used by the statements -/

/-- A run of `insert_word` calls, one per word of `ws`, in order. -/
def insert_all (sd : Dict) (ws : List (List Nat)) : Dict :=
  ws.foldl insert_word sd

/-- The words of a dictionary are strictly increasing in the order of `strcmp`. -/
def dict_sorted (d : Dict) : Prop :=
  d.Pairwise (fun a b => strcmp a.word b.word < 0)

instance (d : Dict) : Decidable (dict_sorted d) := by
  unfold dict_sorted; infer_instance

/-- The count recorded for a word, if it has an entry. -/
def dict_lookup : Dict → List Nat → Option Int
  | [], _ => none
  | e :: d, w => if e.word = w then some e.count else dict_lookup d w

/-- The effect of one upsert on the count of a word: a new entry with count 1, or the
incremented count. -/
def bump_count : Option Int → Option Int
  | none => some 1
  | some c => some (int_wrap (c + 1))

/-- The order of `strcmp` on words. -/
def word_le (a b : List Nat) : Prop := strcmp a b ≤ 0

instance : DecidableRel word_le := fun a b => by
  unfold word_le; infer_instance

/-- The distinct words of a list, in increasing order. -/
def sorted_distinct (ws : List (List Nat)) : List (List Nat) :=
  (ws.dedup).insertionSort word_le

/-- The sorted word count of a list of words, as the specification describes it: one pair
(word, number of occurrences) for each distinct word, in increasing order of the words. -/
def word_count (ws : List (List Nat)) : Dict :=
  (sorted_distinct ws).map (fun w => { word := w, count := (ws.count w : Int) })

/-- The sorted word count with the counts converted to `int`. -/
def word_count_int (ws : List (List Nat)) : Dict :=
  (sorted_distinct ws).map (fun w => { word := w, count := int_wrap (ws.count w : Int) })

/-- The maximal alphabetic runs of a stream, in order, scanning with the run in progress in
`cur`: a letter extends the run, any other character (or the end of the stream) closes it. -/
def alpha_runs_from : List Nat → List Nat → List (List Nat)
  | cur, [] => if cur = [] then [] else [cur]
  | cur, c :: s =>
    if isalpha c then alpha_runs_from (cur ++ [c]) s
    else if cur = [] then alpha_runs_from [] s
    else cur :: alpha_runs_from [] s

/-- The maximal alphabetic runs of a stream: the non-empty blocks of consecutive letters that
the non-alphabetic characters separate. -/
def alpha_runs (s : List Nat) : List (List Nat) :=
  alpha_runs_from [] s

/-! ## The output of `print_dict` -/

/-- The bytes of a string literal. -/
def bytes (s : String) : List Nat :=
  s.toList.map Char.toNat

/-- The conversion `%d` of `printf`: the decimal digits, after a minus sign for a negative
number. -/
def printf_d (x : Int) : List Nat :=
  if x < 0 then 45 :: (Nat.toDigits 10 x.natAbs).map Char.toNat
  else (Nat.toDigits 10 x.natAbs).map Char.toNat

/-- The bytes written by `printf("[%d] %s\n", count, word)`. -/
def printf_entry (a : Int × List Nat) : List Nat :=
  [91] ++ printf_d a.1 ++ [93, 32] ++ a.2 ++ [10]

/-- The output of `print_dict`: the bytes of each `printf` call, in order. -/
def print_dict_out (d : Dict) : List (List Nat) :=
  (print_dict d).map printf_entry

/-! ## Letter case -/

/-- The `tolower` of `<ctype.h>` in the "C" locale. -/
def tolower (c : Nat) : Nat :=
  if 65 ≤ c ∧ c ≤ 90 then c + 32 else c

/-- Two different words that differ only in the case of some letters. -/
def case_variant (w w1 : List Nat) : Prop :=
  w ≠ w1 ∧ w.map tolower = w1.map tolower

instance (w w1 : List Nat) : Decidable (case_variant w w1) := by
  unfold case_variant; infer_instance

/-! ## The worker with its lock operations and buffer stores recorded -/

/-- The three mutexes of the program: the global `mm_mutex` and `gw_mutex`, and the
`lock` field of the shared dictionary. -/
inductive mutex_t
  | mm_mutex
  | gw_mutex
  | sd_lock
  deriving DecidableEq, Repr

/-- What a thread does besides computing: `pthread_mutex_lock`, `pthread_mutex_unlock`, and the
assignment `buf[i] = c` of `get_word`. -/
inductive event_t
  | lock (m : mutex_t)
  | unlock (m : mutex_t)
  | store (i : Nat) (c : Nat)
  deriving DecidableEq, Repr

/-- The events of `mymalloc` (the allocation succeeding). -/
def mymalloc_tr : List event_t :=
  [event_t.lock mutex_t.mm_mutex, event_t.unlock mutex_t.mm_mutex]

/-- The part of `get_word` after the loop, with its events: both return paths unlock. -/
def get_word_exit_tr (buf : List Nat) (inword : Nat) (infile : List Nat) :
    (Int × List Nat × List Nat) × List event_t :=
  if inword > 0 then
    ((1, buf.set inword 0, infile),
      [event_t.store inword 0, event_t.unlock mutex_t.gw_mutex])
  else ((0, buf, infile), [event_t.unlock mutex_t.gw_mutex])

/-- The loop of `get_word` with its events. -/
def get_word_loop_tr (n : Int) :
    Nat → List Nat → List Nat → (Int × List Nat × List Nat) × List event_t
  | inword, buf, [] => get_word_exit_tr buf inword []
  | inword, buf, c :: infile =>
    if (inword : Int) < n then
      if inword ≠ 0 ∧ isalpha c = false then
        ((1, buf.set inword 0, infile),
          [event_t.store inword 0, event_t.unlock mutex_t.gw_mutex])
      else if isalpha c then
        ((get_word_loop_tr n (inword + 1) (buf.set inword c) infile).1,
          event_t.store inword c :: (get_word_loop_tr n (inword + 1) (buf.set inword c) infile).2)
      else
        get_word_loop_tr n inword buf infile
    else
      get_word_exit_tr buf inword infile

/-- The function `get_word` with its events: the lock is taken before the loop. -/
def get_word_tr (buf : List Nat) (n : Int) (infile : List Nat) :
    (Int × List Nat × List Nat) × List event_t :=
  ((get_word_loop_tr n 0 buf infile).1,
    event_t.lock mutex_t.gw_mutex :: (get_word_loop_tr n 0 buf infile).2)

/-- The events of `make_dict`: `mymalloc` for the node, then `mymalloc` in `make_word`. -/
def make_dict_tr : List event_t :=
  mymalloc_tr ++ mymalloc_tr

/-- The search loop of `insert_word` and what follows it, with the events: the return after
the increment, and the two returns after the new node is linked (after `pd`, or as the head),
each preceded by the unlock. -/
def insert_word_loop_tr : Dict → List Nat → Dict × List event_t
  | [], word => ([make_dict word], make_dict_tr ++ [event_t.unlock mutex_t.sd_lock])
  | di :: next, word =>
    if strcmp word di.word ≥ 0 then
      if strcmp word di.word = 0 then
        ({ di with count := int_wrap (di.count + 1) } :: next, [event_t.unlock mutex_t.sd_lock])
      else
        (di :: (insert_word_loop_tr next word).1, (insert_word_loop_tr next word).2)
    else
      (make_dict word :: di :: next, make_dict_tr ++ [event_t.unlock mutex_t.sd_lock])

/-- The function `insert_word` with its events: the lock is taken before the search. -/
def insert_word_tr (sd : Dict) (word : List Nat) : Dict × List event_t :=
  ((insert_word_loop_tr sd word).1,
    event_t.lock mutex_t.sd_lock :: (insert_word_loop_tr sd word).2)

/-- The loop of `words` with its events. -/
def words_loop_tr :
    Nat → Dict → List Nat → List Nat → Option ((Dict × List Nat × List Nat) × List event_t)
  | 0, _, _, _ => none
  | fuel + 1, sd, wordbuf, infile =>
    if (get_word_tr wordbuf MAXWORD infile).1.1 ≠ 0 then
      (words_loop_tr fuel
        (insert_word_tr sd (c_str (get_word_tr wordbuf MAXWORD infile).1.2.1)).1
        (get_word_tr wordbuf MAXWORD infile).1.2.1
        (get_word_tr wordbuf MAXWORD infile).1.2.2).map
        (fun q => (q.1, (get_word_tr wordbuf MAXWORD infile).2 ++
          (insert_word_tr sd (c_str (get_word_tr wordbuf MAXWORD infile).1.2.1)).2 ++ q.2))
    else
      some ((sd, (get_word_tr wordbuf MAXWORD infile).1.2.1,
        (get_word_tr wordbuf MAXWORD infile).1.2.2), (get_word_tr wordbuf MAXWORD infile).2)

/-- The thread function `words` with its events: `mymalloc` for `ret`, then the loop. -/
def words_tr (sd : Dict) (wordbuf : List Nat) (infile : List Nat) :
    Option ((Dict × List Nat × List Nat) × List event_t) :=
  (words_loop_tr (infile.length + 1) sd wordbuf infile).map (fun q => (q.1, mymalloc_tr ++ q.2))

/-- The effect of one event on whether the mutex `m` is held. -/
def step_held (m : mutex_t) (h : Bool) (e : event_t) : Bool :=
  match e with
  | event_t.lock m1 => if m1 = m then true else h
  | event_t.unlock m1 => if m1 = m then false else h
  | event_t.store _ _ => h

/-- Whether the mutex `m` is held after a sequence of events, `h` telling whether it was held
before. -/
def held_from (m : mutex_t) (h : Bool) (tr : List event_t) : Bool :=
  tr.foldl (step_held m) h

/-- Whether a mutex is held after a sequence of events that starts with no mutex held. -/
def holds (m : mutex_t) (tr : List event_t) : Bool :=
  held_from m false tr

/-- No point of a sequence of events has both `gw_mutex` and the dictionary lock held, `g` and
`s` telling whether they are held at the start. -/
def nest_free : Bool → Bool → List event_t → Bool
  | g, s, [] => !(g && s)
  | g, s, e :: es =>
    !(g && s) && nest_free (step_held mutex_t.gw_mutex g e) (step_held mutex_t.sd_lock s e) es

/-- The buffer after a sequence of stores. -/
def apply_stores (buf : List Nat) (l : List (Nat × Nat)) : List Nat :=
  l.foldl (fun b p => b.set p.1 p.2) buf

/-- The lock and unlock events of a sequence. -/
def mutex_events (tr : List event_t) : List event_t :=
  tr.filter (fun e =>
    match e with
    | event_t.store _ _ => false
    | _ => true)

/-- The buffer stores of a sequence, as pairs of index and byte. -/
def stores (tr : List event_t) : List (Nat × Nat) :=
  tr.filterMap (fun e =>
    match e with
    | event_t.store i c => some (i, c)
    | _ => none)

/-! ## Several threads in `insert_word` -/

/-- Where a thread stands with respect to `insert_word`: outside the function (before
`pthread_mutex_lock` returns, or after the return), at the test of the `while` loop with `di`
the node of index `i` of the list (`pd` the node before it), or after the update of the list
and before `pthread_mutex_unlock`. -/
inductive pc_t
  | idle
  | search (i : Nat)
  | unlock
  deriving DecidableEq, Repr

/-- A thread: its control point and the words of the `insert_word` calls it has still to
complete, the first being the call in progress when the thread is inside the function. -/
structure thread_t where
  pc : pc_t
  calls : List (List Nat)
  deriving DecidableEq, Repr

/-- The shared dictionary `syncdict_t`: the state of its mutex and the list. -/
structure syncdict_t where
  locked : Bool
  wd : Dict
  deriving DecidableEq, Repr

/-- One atomic step of a thread on the shared dictionary, `none` when the thread cannot move:
it has no call left, or it waits in `pthread_mutex_lock` for a mutex that is taken.

* `idle`: `pthread_mutex_lock( &sd->lock )` and `di = sd->wd`;
* `search i`: one test of the `while` condition with what follows it: the increment of
  `di->count`, the advance of `pd` and `di`, or `make_dict`, `nd->next = di` and the link of
  `nd` after `pd` (as the head when `i = 0`);
* `unlock`: `pthread_mutex_unlock( &sd->lock )` and the return. -/
def thread_step (sd : syncdict_t) (th : thread_t) : Option (syncdict_t × thread_t) :=
  match th.calls with
  | [] => none
  | word :: rest =>
    match th.pc with
    | pc_t.idle =>
      if sd.locked then none
      else some ({ sd with locked := true }, { th with pc := pc_t.search 0 })
    | pc_t.search i =>
      match sd.wd.drop i with
      | [] =>
        some ({ sd with wd := sd.wd.take i ++ [make_dict word] }, { th with pc := pc_t.unlock })
      | di :: next =>
        if strcmp word di.word ≥ 0 then
          if strcmp word di.word = 0 then
            some ({ sd with wd := sd.wd.take i ++
              { di with count := int_wrap (di.count + 1) } :: next },
              { th with pc := pc_t.unlock })
          else
            some (sd, { th with pc := pc_t.search (i + 1) })
        else
          some ({ sd with wd := sd.wd.take i ++ make_dict word :: di :: next },
            { th with pc := pc_t.unlock })
    | pc_t.unlock =>
      some ({ sd with locked := false }, { pc := pc_t.idle, calls := rest })

/-- The threads and the dictionary they share. -/
structure sys_t where
  sd : syncdict_t
  threads : List thread_t
  deriving DecidableEq, Repr

/-- The scheduler lets thread `t` make one step; nothing changes when it cannot move. -/
def sys_step (s : sys_t) (t : Nat) : sys_t :=
  match s.threads[t]? with
  | none => s
  | some th =>
    match thread_step s.sd th with
    | none => s
    | some r => { sd := r.1, threads := s.threads.set t r.2 }

/-- A run under a schedule: the list of the threads that move, in order. -/
def sys_run (s : sys_t) (sched : List Nat) : sys_t :=
  sched.foldl sys_step s

/-- The initial state: the mutex free, the list `d0`, and one thread for each list of words. -/
def sys_init (d0 : Dict) (calls : List (List (List Nat))) : sys_t :=
  { sd := { locked := false, wd := d0 },
    threads := calls.map (fun c => { pc := pc_t.idle, calls := c }) }

/-- Every thread has returned from its last call. -/
def sys_done (s : sys_t) : Prop :=
  ∀ th ∈ s.threads, th.pc = pc_t.idle ∧ th.calls = []

instance (s : sys_t) : Decidable (sys_done s) := by
  unfold sys_done; infer_instance

/-- What holds of the thread that is inside `insert_word`, `d` being the list before its call
and `cur` the list now. -/
def in_call (d cur : Dict) (th : thread_t) : Prop :=
  match th.pc with
  | pc_t.idle => False
  | pc_t.search i =>
    ∃ w rest, th.calls = w :: rest ∧ cur = d ∧ ∀ e ∈ d.take i, 0 < strcmp w e.word
  | pc_t.unlock => ∃ w rest, th.calls = w :: rest ∧ cur = insert_word d w

/-- The invariant of the runs, `hist` being the words of the calls that have returned, in the
order of their returns: these and the calls that the threads have still to complete are the
calls to make; when the mutex is free every thread is outside `insert_word` and the list is
the result of the calls of `hist` made one after the other; when it is taken exactly one
thread is inside. -/
def sys_inv (d0 : Dict) (all : List (List Nat)) (s : sys_t) : Prop :=
  ∃ hist : List (List Nat),
    (hist ++ (s.threads.map (fun th => th.calls)).flatten).Perm all ∧
    ((s.sd.locked = false ∧ (∀ th ∈ s.threads, th.pc = pc_t.idle) ∧
        s.sd.wd = insert_all d0 hist) ∨
      (s.sd.locked = true ∧ ∃ l1 th l2, s.threads = l1 ++ th :: l2 ∧
        (∀ x ∈ l1, x.pc = pc_t.idle) ∧ (∀ x ∈ l2, x.pc = pc_t.idle) ∧
        in_call (insert_all d0 hist) s.sd.wd th))

/-! ## `insert_word` when `mymalloc` may fail -/

/-- How a call ends: the function returns a value; or the process is killed by a store through
the null pointer that `mymalloc` returned (the program installs no signal handler and never
tests the result of `mymalloc`, so the fault ends the whole process). -/
inductive outcome_t (α : Type)
  | returns (a : α)
  | killed
  deriving DecidableEq, Repr

/-- The function `mymalloc` with the results of the successive `malloc` calls given by a list
(`true` for memory obtained, `false` for `NULL`; memory is obtained once the list is used up):
whether the result is non-null, and the rest of the list. The result of `malloc` is returned
as it is. -/
def mymalloc_res (mem : List Bool) : Bool × List Bool :=
  match mem with
  | [] => (true, [])
  | r :: mem1 => (r, mem1)

/-- The function `make_word`: `strcpy` stores into the result of `mymalloc`, unchecked. -/
def make_word_res (word : List Nat) (mem : List Bool) : outcome_t (List Nat) × List Bool :=
  if (mymalloc_res mem).1 then (outcome_t.returns word, (mymalloc_res mem).2)
  else (outcome_t.killed, (mymalloc_res mem).2)

/-- The function `make_dict`: `mymalloc` for the node, then `make_word`, then the stores
`nd->word`, `nd->count` and `nd->next` into the node, unchecked. -/
def make_dict_res (word : List Nat) (mem : List Bool) : outcome_t dict_t × List Bool :=
  match make_word_res word (mymalloc_res mem).2 with
  | (outcome_t.returns w, mem2) =>
    if (mymalloc_res mem).1 then (outcome_t.returns { word := w, count := 1 }, mem2)
    else (outcome_t.killed, mem2)
  | (outcome_t.killed, mem2) => (outcome_t.killed, mem2)

/-- The function `insert_word` with `mymalloc` possibly failing: how the call ends, the shared
list at that moment, and the results of `malloc` not yet used. The search is that of
`insert_word`; the new node, when one is made, is linked into the list only after `make_dict`
has returned. -/
def insert_word_res : Dict → List Nat → List Bool → outcome_t Unit × Dict × List Bool
  | [], word, mem =>
    match make_dict_res word mem with
    | (outcome_t.returns nd, mem2) => (outcome_t.returns (), [nd], mem2)
    | (outcome_t.killed, mem2) => (outcome_t.killed, [], mem2)
  | di :: next, word, mem =>
    if strcmp word di.word ≥ 0 then
      if strcmp word di.word = 0 then
        (outcome_t.returns (), { di with count := int_wrap (di.count + 1) } :: next, mem)
      else
        ((insert_word_res next word mem).1, di :: (insert_word_res next word mem).2.1,
          (insert_word_res next word mem).2.2)
    else
      match make_dict_res word mem with
      | (outcome_t.returns nd, mem2) => (outcome_t.returns (), nd :: di :: next, mem2)
      | (outcome_t.killed, mem2) => (outcome_t.killed, di :: next, mem2)

/-! ## The order of `strcmp` -/

theorem strcmp_eq_zero_iff (a b : List Nat) : strcmp a b = 0 ↔ a = b := by
  induction a generalizing b with
  | nil => cases b <;> simp [strcmp]
  | cons x xs ih =>
    cases b with
    | nil => simp [strcmp]
    | cons y ys =>
      simp only [strcmp]
      split_ifs with h1 h2
      · simp; omega
      · simp; omega
      · have : x = y := by omega
        simp [ih, this]

theorem strcmp_self (a : List Nat) : strcmp a a = 0 := (strcmp_eq_zero_iff a a).2 rfl

theorem strcmp_neg_iff_pos (a b : List Nat) : strcmp a b < 0 ↔ 0 < strcmp b a := by
  induction a generalizing b with
  | nil => cases b <;> simp [strcmp]
  | cons x xs ih =>
    cases b with
    | nil => simp [strcmp]
    | cons y ys =>
      simp only [strcmp]
      split_ifs <;> first | omega | simp | exact ih ys

theorem strcmp_trans {a b c : List Nat} (h1 : strcmp a b < 0) (h2 : strcmp b c < 0) :
    strcmp a c < 0 := by
  induction a generalizing b c with
  | nil =>
    cases c with
    | nil => cases b <;> simp [strcmp] at h1 h2
    | cons z zs => simp [strcmp]
  | cons x xs ih =>
    cases b with
    | nil => simp [strcmp] at h1
    | cons y ys =>
      cases c with
      | nil => simp [strcmp] at h2
      | cons z zs =>
        simp only [strcmp] at h1 h2 ⊢
        split_ifs at h1 h2 ⊢ <;> first | omega | simp | exact ih h1 h2

/-- The order of `strcmp` is the lexicographic order of the byte lists. -/
theorem strcmp_neg_iff_lex (a b : List Nat) :
    strcmp a b < 0 ↔ List.Lex (fun x y : Nat => x < y) a b := by
  induction a generalizing b with
  | nil =>
    cases b with
    | nil =>
      simp only [strcmp, lt_self_iff_false, false_iff]
      intro h; cases h
    | cons y ys =>
      simp only [strcmp]
      exact ⟨fun _ => List.Lex.nil, fun _ => by decide⟩
  | cons x xs ih =>
    cases b with
    | nil =>
      simp only [strcmp]
      refine ⟨fun h => absurd h (by decide), fun h => ?_⟩
      cases h
    | cons y ys =>
      simp only [strcmp]
      split_ifs with h1 h2
      · exact ⟨fun _ => List.Lex.rel h1, fun _ => by decide⟩
      · refine ⟨fun h => absurd h (by decide), fun h => ?_⟩
        cases h with
        | cons h => omega
        | rel h => omega
      · have : x = y := by omega
        subst this
        rw [ih]
        refine ⟨fun h => List.Lex.cons h, fun h => ?_⟩
        cases h with
        | cons h => exact h
        | rel h => omega

/-! ## One upsert on a sorted dictionary -/

theorem int_wrap_succ (x : Int) : int_wrap (int_wrap x + 1) = int_wrap (x + 1) := by
  unfold int_wrap; omega

theorem int_wrap_of_range {x : Int} (h1 : -2147483648 ≤ x) (h2 : x ≤ 2147483647) :
    int_wrap x = x := by
  unfold int_wrap; omega

theorem mem_insert_word {d : Dict} {w : List Nat} {e : dict_t} (h : e ∈ insert_word d w) :
    e.word = w ∨ ∃ e1 ∈ d, e1.word = e.word := by
  induction d with
  | nil =>
    simp [insert_word, make_dict, make_word] at h
    left; rw [h]
  | cons di next ih =>
    simp only [insert_word] at h
    split_ifs at h with h1 h2
    · rcases List.mem_cons.1 h with h | h
      · right; exact ⟨di, List.mem_cons_self _ _, by rw [h]⟩
      · right; exact ⟨e, List.mem_cons_of_mem _ h, rfl⟩
    · rcases List.mem_cons.1 h with h | h
      · right; exact ⟨di, List.mem_cons_self _ _, by rw [h]⟩
      · rcases ih h with h | ⟨e1, he1, h⟩
        · left; exact h
        · right; exact ⟨e1, List.mem_cons_of_mem _ he1, h⟩
    · rcases List.mem_cons.1 h with h | h
      · left; rw [h]; rfl
      · right; exact ⟨e, h, rfl⟩

theorem insert_word_sorted {d : Dict} (w : List Nat) (h : dict_sorted d) :
    dict_sorted (insert_word d w) := by
  induction d with
  | nil => simp [insert_word, dict_sorted]
  | cons di next ih =>
    have hs := List.pairwise_cons.1 h
    simp only [insert_word]
    split_ifs with h1 h2
    · exact List.pairwise_cons.2 ⟨fun e he => hs.1 e he, hs.2⟩
    · refine List.pairwise_cons.2 ⟨fun e he => ?_, ih hs.2⟩
      rcases mem_insert_word he with hw | ⟨e1, he1, hw⟩
      · rw [hw, strcmp_neg_iff_pos]; omega
      · rw [← hw]; exact hs.1 e1 he1
    · refine List.pairwise_cons.2 ⟨fun e he => ?_, h⟩
      have hlt : strcmp w di.word < 0 := by omega
      rcases List.mem_cons.1 he with he | he
      · rw [he]; exact hlt
      · exact strcmp_trans hlt (hs.1 e he)

theorem dict_lookup_eq_none_iff (d : Dict) (w : List Nat) :
    dict_lookup d w = none ↔ ∀ e ∈ d, e.word ≠ w := by
  induction d with
  | nil => simp [dict_lookup]
  | cons e d ih =>
    simp only [dict_lookup]
    split_ifs with h
    · simp [h]
    · simp [ih, h]

theorem dict_lookup_of_lt {e : dict_t} {d : Dict} {w : List Nat} (h : dict_sorted (e :: d))
    (hw : strcmp w e.word < 0) : dict_lookup (e :: d) w = none := by
  rw [dict_lookup_eq_none_iff]
  intro e1 he1 heq
  have hs := List.pairwise_cons.1 h
  rcases List.mem_cons.1 he1 with h1 | h1
  · rw [h1] at heq; rw [heq, strcmp_self] at hw; omega
  · have := strcmp_trans hw (hs.1 e1 h1)
    rw [heq, strcmp_self] at this; omega

theorem dict_lookup_tail_head {e : dict_t} {d : Dict} (h : dict_sorted (e :: d)) :
    dict_lookup d e.word = none := by
  rw [dict_lookup_eq_none_iff]
  intro e1 he1 heq
  have := (List.pairwise_cons.1 h).1 e1 he1
  rw [heq, strcmp_self] at this; omega

theorem dict_lookup_insert_word {d : Dict} (w v : List Nat) (h : dict_sorted d) :
    dict_lookup (insert_word d w) v =
      if v = w then bump_count (dict_lookup d w) else dict_lookup d v := by
  induction d with
  | nil =>
    simp [insert_word, dict_lookup, make_dict, make_word, bump_count, eq_comm]
  | cons di next ih =>
    have hs := List.pairwise_cons.1 h
    have ih1 := ih hs.2
    simp only [insert_word]
    by_cases h1 : strcmp w di.word ≥ 0
    · by_cases h2 : strcmp w di.word = 0
      · have hw : di.word = w := ((strcmp_eq_zero_iff _ _).1 h2).symm
        rw [if_pos h1, if_pos h2]
        by_cases h3 : v = w
        · simp [dict_lookup, hw, h3, bump_count]
        · have : ¬ w = v := fun h => h3 h.symm
          simp [dict_lookup, hw, this, h3]
      · have hw : ¬ di.word = w := fun h => h2 ((strcmp_eq_zero_iff _ _).2 h.symm)
        by_cases h3 : v = w
        · subst h3
          simp only [if_pos h1, if_neg h2, dict_lookup, if_neg hw, ih1, if_true]
        · have hv : ¬ w = v := fun h => h3 h.symm
          simp only [if_pos h1, if_neg h2, dict_lookup, ih1, if_neg h3]
    · have hlt : strcmp w di.word < 0 := by omega
      rw [if_neg h1]
      by_cases h3 : v = w
      · subst h3
        rw [dict_lookup_of_lt h hlt]
        simp [dict_lookup, make_dict, make_word, bump_count]
      · have : ¬ w = v := fun h => h3 h.symm
        simp [dict_lookup, make_dict, make_word, this, h3]

theorem dict_sorted_ext {d1 d2 : Dict} (h1 : dict_sorted d1) (h2 : dict_sorted d2)
    (h : ∀ w, dict_lookup d1 w = dict_lookup d2 w) : d1 = d2 := by
  induction d1 generalizing d2 with
  | nil =>
    cases d2 with
    | nil => rfl
    | cons e2 t2 => have := h e2.word; simp [dict_lookup] at this
  | cons e1 t1 ih =>
    cases d2 with
    | nil => have := h e1.word; simp [dict_lookup] at this
    | cons e2 t2 =>
      have hw : e1.word = e2.word := by
        by_contra hne
        rcases lt_trichotomy (strcmp e1.word e2.word) 0 with hlt | heq | hgt
        · have := h e1.word
          rw [dict_lookup_of_lt h2 hlt] at this
          simp [dict_lookup] at this
        · exact hne ((strcmp_eq_zero_iff _ _).1 heq)
        · have := h e2.word
          rw [dict_lookup_of_lt h1 ((strcmp_neg_iff_pos _ _).2 hgt)] at this
          simp [dict_lookup] at this
      have hc : e1.count = e2.count := by
        have := h e1.word
        simpa [dict_lookup, hw] using this
      have he : e1 = e2 := by
        cases e1; cases e2; simp at hw hc; simp [hw, hc]
      subst he
      congr 1
      apply ih (List.pairwise_cons.1 h1).2 (List.pairwise_cons.1 h2).2
      intro w
      by_cases hv : e1.word = w
      · rw [← hv, dict_lookup_tail_head h1, dict_lookup_tail_head h2]
      · have := h w
        simpa [dict_lookup, hv] using this

/-! ## A run of upserts -/

theorem insert_all_sorted {d : Dict} (ws : List (List Nat)) (h : dict_sorted d) :
    dict_sorted (insert_all d ws) := by
  induction ws generalizing d with
  | nil => exact h
  | cons w ws ih => exact ih (insert_word_sorted w h)

theorem insert_all_append (d : Dict) (ws : List (List Nat)) (w : List Nat) :
    insert_all d (ws ++ [w]) = insert_word (insert_all d ws) w := by
  simp [insert_all, List.foldl_append]

theorem dict_sorted_nil : dict_sorted [] := List.Pairwise.nil

theorem dict_lookup_insert_all (ws : List (List Nat)) (v : List Nat) :
    dict_lookup (insert_all [] ws) v =
      if ws.count v = 0 then none else some (int_wrap (ws.count v : Int)) := by
  induction ws using List.reverseRecOn with
  | nil => simp [insert_all, dict_lookup]
  | append_singleton ws w ih =>
    rw [insert_all_append, dict_lookup_insert_word w v (insert_all_sorted ws dict_sorted_nil)]
    by_cases hv : v = w
    · subst hv
      rw [if_pos rfl, ih]
      by_cases hc : ws.count v = 0
      · simp [hc, bump_count, int_wrap]
      · simp only [if_neg hc, bump_count, List.count_append, List.count_singleton_self]
        have : ¬ (List.count v ws + 1 = 0) := by omega
        rw [if_neg this, int_wrap_succ]
        push_cast; rfl
    · rw [if_neg hv, ih]
      have : List.count v (ws ++ [w]) = List.count v ws := by
        rw [List.count_append]
        have : List.count v [w] = 0 := by
          rw [List.count_eq_zero]; simp [hv]
        omega
      rw [this]

theorem word_le_total (a b : List Nat) : word_le a b ∨ word_le b a := by
  unfold word_le
  by_cases h : strcmp a b ≤ 0
  · exact Or.inl h
  · right
    have h1 : strcmp b a < 0 := (strcmp_neg_iff_pos b a).2 (by omega)
    omega

theorem word_le_trans {a b c : List Nat} (h1 : word_le a b) (h2 : word_le b c) : word_le a c := by
  unfold word_le at *
  rcases lt_or_eq_of_le h1 with h1 | h1
  · rcases lt_or_eq_of_le h2 with h2 | h2
    · exact le_of_lt (strcmp_trans h1 h2)
    · rw [(strcmp_eq_zero_iff _ _).1 h2] at h1; exact le_of_lt h1
  · rw [(strcmp_eq_zero_iff _ _).1 h1]; exact h2

theorem sorted_distinct_mem (ws : List (List Nat)) (w : List Nat) :
    w ∈ sorted_distinct ws ↔ w ∈ ws := by
  unfold sorted_distinct
  rw [(List.perm_insertionSort word_le _).mem_iff, List.mem_dedup]

theorem sorted_distinct_pairwise (ws : List (List Nat)) :
    (sorted_distinct ws).Pairwise (fun a b => strcmp a b < 0) := by
  haveI : IsTotal (List Nat) word_le := ⟨word_le_total⟩
  haveI : IsTrans (List Nat) word_le := ⟨fun _ _ _ => word_le_trans⟩
  have h1 : (sorted_distinct ws).Pairwise word_le := List.sorted_insertionSort word_le _
  have h2 : (sorted_distinct ws).Pairwise (fun a b => a ≠ b) :=
    ((List.perm_insertionSort word_le _).nodup_iff).2 (List.nodup_dedup ws)
  refine (h1.and h2).imp ?_
  intro a b ⟨hle, hne⟩
  unfold word_le at hle
  rcases lt_or_eq_of_le hle with h | h
  · exact h
  · exact absurd ((strcmp_eq_zero_iff _ _).1 h) hne

theorem dict_sorted_map (l : List (List Nat)) (f : List Nat → Int)
    (h : l.Pairwise (fun a b => strcmp a b < 0)) :
    dict_sorted (l.map (fun w => { word := w, count := f w })) := by
  unfold dict_sorted
  rw [List.pairwise_map]
  exact h

theorem dict_lookup_map (l : List (List Nat)) (f : List Nat → Int) (v : List Nat) :
    dict_lookup (l.map (fun w => { word := w, count := f w })) v =
      if v ∈ l then some (f v) else none := by
  induction l with
  | nil => simp [dict_lookup]
  | cons a l ih =>
    simp only [List.map_cons, dict_lookup, ih, List.mem_cons]
    by_cases h : a = v
    · simp [h]
    · have : ¬ v = a := fun h1 => h h1.symm
      simp [h, this]

theorem insert_all_eq_word_count_int (ws : List (List Nat)) :
    insert_all [] ws = word_count_int ws := by
  unfold word_count_int
  apply dict_sorted_ext (insert_all_sorted ws dict_sorted_nil)
    (dict_sorted_map _ _ (sorted_distinct_pairwise ws))
  intro v
  rw [dict_lookup_insert_all, dict_lookup_map]
  by_cases h : v ∈ ws
  · have : ¬ ws.count v = 0 := by
      rw [List.count_eq_zero]; exact fun h1 => h1 h
    rw [if_neg this, if_pos ((sorted_distinct_mem ws v).2 h)]
  · have : ws.count v = 0 := List.count_eq_zero.2 h
    rw [if_pos this, if_neg (fun h1 => h ((sorted_distinct_mem ws v).1 h1))]

/-! ## Further facts on upserts -/

theorem insert_word_splice (d : Dict) (w : List Nat) (ha : ∀ e ∈ d, e.word ≠ w) :
    insert_word d w =
      d.takeWhile (fun e => !decide (strcmp w e.word < 0)) ++
        { word := w, count := 1 } :: d.dropWhile (fun e => !decide (strcmp w e.word < 0)) := by
  induction d with
  | nil => simp [insert_word, make_dict, make_word]
  | cons di next ih =>
    have hne : ¬ strcmp w di.word = 0 := fun h =>
      ha di (List.mem_cons_self _ _) ((strcmp_eq_zero_iff _ _).1 h).symm
    have ih1 := ih (fun e he => ha e (List.mem_cons_of_mem _ he))
    simp only [insert_word]
    by_cases h1 : strcmp w di.word ≥ 0
    · have h2 : ¬ strcmp w di.word < 0 := by omega
      rw [if_pos h1, if_neg hne, ih1]
      simp [List.takeWhile_cons, List.dropWhile_cons, h2]
    · have h2 : strcmp w di.word < 0 := by omega
      rw [if_neg h1]
      simp [List.takeWhile_cons, List.dropWhile_cons, h2, make_dict, make_word]

theorem sorted_before_after {d : Dict} (w : List Nat) (hs : dict_sorted d)
    (ha : ∀ e ∈ d, e.word ≠ w) :
    (∀ e ∈ d.takeWhile (fun e => !decide (strcmp w e.word < 0)), strcmp e.word w < 0) ∧
    (∀ e ∈ d.dropWhile (fun e => !decide (strcmp w e.word < 0)), strcmp w e.word < 0) := by
  induction d with
  | nil => simp
  | cons di next ih =>
    have hp := List.pairwise_cons.1 hs
    have ih1 := ih hp.2 (fun e he => ha e (List.mem_cons_of_mem _ he))
    have hne : ¬ strcmp w di.word = 0 := fun h =>
      ha di (List.mem_cons_self _ _) ((strcmp_eq_zero_iff _ _).1 h).symm
    by_cases h2 : strcmp w di.word < 0
    · constructor
      · simp [List.takeWhile_cons, h2]
      · intro e he
        simp only [List.dropWhile_cons, h2, decide_True, Bool.not_true] at he
        rcases List.mem_cons.1 he with h | h
        · rw [h]; exact h2
        · exact strcmp_trans h2 (hp.1 e h)
    · constructor
      · intro e he
        simp only [List.takeWhile_cons, h2, decide_False, Bool.not_false, if_true] at he
        rcases List.mem_cons.1 he with h | h
        · rw [h, strcmp_neg_iff_pos]; omega
        · exact ih1.1 e h
      · intro e he
        simp only [List.dropWhile_cons, h2, decide_False, Bool.not_false, if_true] at he
        exact ih1.2 e he

theorem insert_word_bump (d : Dict) (w : List Nat) (hs : dict_sorted d)
    (hp : ∃ e ∈ d, e.word = w) :
    insert_word d w =
      d.map (fun x => if x.word = w then { x with count := int_wrap (x.count + 1) } else x) := by
  induction d with
  | nil => obtain ⟨e, he, _⟩ := hp; simp at he
  | cons di next ih =>
    have hpw := List.pairwise_cons.1 hs
    simp only [insert_word, List.map_cons]
    by_cases h2 : strcmp w di.word = 0
    · have hw : di.word = w := ((strcmp_eq_zero_iff _ _).1 h2).symm
      have h1 : strcmp w di.word ≥ 0 := by omega
      rw [if_pos h1, if_pos h2, if_pos hw]
      congr 1
      have hid : List.map (fun x : dict_t =>
          if x.word = w then { x with count := int_wrap (x.count + 1) } else x) next =
          List.map id next := by
        apply List.map_congr_left
        intro x hx
        have hlt := hpw.1 x hx
        have : ¬ x.word = w := by
          intro h; rw [h, hw, strcmp_self] at hlt; omega
        rw [if_neg this]; rfl
      rw [hid, List.map_id]
    · have hw : ¬ di.word = w := fun h => h2 ((strcmp_eq_zero_iff _ _).2 h.symm)
      obtain ⟨e, he, hew⟩ := hp
      have he1 : e ∈ next := by
        rcases List.mem_cons.1 he with h | h
        · rw [h] at hew; exact absurd hew hw
        · exact h
      have h1 : strcmp w di.word ≥ 0 := by
        have := hpw.1 e he1
        rw [hew, strcmp_neg_iff_pos] at this
        omega
      rw [if_pos h1, if_neg h2, if_neg hw, ih hpw.2 ⟨e, he1, hew⟩]

theorem dict_sorted_unique {d : Dict} (hs : dict_sorted d) {a b : dict_t} (ha : a ∈ d)
    (hb : b ∈ d) (h : a.word = b.word) : a = b := by
  induction d with
  | nil => simp at ha
  | cons di next ih =>
    have hpw := List.pairwise_cons.1 hs
    rcases List.mem_cons.1 ha with h1 | h1 <;> rcases List.mem_cons.1 hb with h2 | h2
    · rw [h1, h2]
    · have := hpw.1 b h2
      rw [← h1, h, strcmp_self] at this; omega
    · have := hpw.1 a h1
      rw [← h2, ← h, strcmp_self] at this; omega
    · exact ih hpw.2 h1 h2

theorem dict_lookup_of_mem {d : Dict} (hs : dict_sorted d) {e : dict_t} (he : e ∈ d) :
    dict_lookup d e.word = some e.count := by
  induction d with
  | nil => simp at he
  | cons di next ih =>
    rcases List.mem_cons.1 he with h | h
    · simp [dict_lookup, h]
    · have hne : ¬ di.word = e.word := fun hw =>
        absurd (dict_sorted_unique hs (List.mem_cons_self _ _) he hw)
          (fun h1 => by
            have := (List.pairwise_cons.1 hs).1 e h
            rw [h1, strcmp_self] at this; omega)
      simp only [dict_lookup, if_neg hne]
      exact ih (List.pairwise_cons.1 hs).2 h

theorem dict_sorted_words_nodup {d : Dict} (h : dict_sorted d) :
    (d.map (fun e => e.word)).Nodup := by
  unfold List.Nodup
  rw [List.pairwise_map]
  refine List.Pairwise.imp ?_ h
  intro a b hlt heq
  rw [heq, strcmp_self] at hlt; omega

theorem print_dict_words (d : Dict) :
    (print_dict d).map (fun l => l.2) = d.map (fun e => e.word) := by
  simp [print_dict, List.map_map, Function.comp]

theorem word_count_of_le (ws : List (List Nat)) (h : ∀ w, ws.count w ≤ 2147483647) :
    word_count_int ws = word_count ws := by
  unfold word_count_int word_count
  apply List.map_congr_left
  intro w _
  have := h w
  rw [int_wrap_of_range (by omega) (by omega)]

/-! ## One call of the tokenizer -/

theorem isalpha_ne_zero {c : Nat} (h : isalpha c = true) : c ≠ 0 := by
  intro h0; subst h0; simp [isalpha] at h

theorem c_str_append_zero (w tl : List Nat) (hw : ∀ c ∈ w, isalpha c = true) :
    c_str (w ++ 0 :: tl) = w := by
  unfold c_str
  induction w with
  | nil => simp
  | cons c w ih =>
    have hc : (c != 0) = true := by
      simpa using isalpha_ne_zero (hw c (List.mem_cons_self _ _))
    have ih1 := ih (fun x hx => hw x (List.mem_cons_of_mem _ hx))
    simp only [List.cons_append, List.takeWhile_cons, hc, if_true, ih1]

theorem get_word_loop_skip (n : Nat) (hn : 1 ≤ n) (buf sep s : List Nat)
    (hsep : ∀ c ∈ sep, isalpha c = false) :
    get_word_loop (n : Int) 0 buf (sep ++ s) = get_word_loop (n : Int) 0 buf s := by
  induction sep with
  | nil => rfl
  | cons c sep ih =>
    have hc : isalpha c = false := hsep c (List.mem_cons_self _ _)
    have hlt : ((0 : Nat) : Int) < (n : Int) := by exact_mod_cast hn
    rw [List.cons_append, get_word_loop, if_pos hlt]
    simp only [ne_eq, not_true_eq_false, false_and, if_false, hc, Bool.false_eq_true]
    exact ih (fun x hx => hsep x (List.mem_cons_of_mem _ hx))

theorem get_word_loop_nil (n : Int) (buf : List Nat) :
    get_word_loop n 0 buf [] = (0, buf, []) := by
  simp [get_word_loop, get_word_exit]

theorem get_word_loop_letters (n : Nat) (acc tl run s : List Nat)
    (hrun : ∀ c ∈ run, isalpha c = true) (hlen : acc.length + run.length ≤ n)
    (htl : run.length ≤ tl.length) :
    get_word_loop (n : Int) acc.length (acc ++ tl) (run ++ s) =
      get_word_loop (n : Int) (acc.length + run.length) (acc ++ run ++ tl.drop run.length) s := by
  induction run generalizing acc tl with
  | nil => simp
  | cons c run ih =>
    have hc : isalpha c = true := hrun c (List.mem_cons_self _ _)
    cases tl with
    | nil => simp at htl
    | cons t tl =>
      have hlt : ((acc.length : Nat) : Int) < (n : Int) := by
        simp only [List.length_cons] at hlen
        exact_mod_cast (by omega : acc.length < n)
      rw [List.cons_append, get_word_loop, if_pos hlt]
      simp only [hc, Bool.true_eq_false, and_false, if_false, if_true]
      have hset : (acc ++ t :: tl).set acc.length c = (acc ++ [c]) ++ tl := by
        rw [List.set_append_right _ _ (le_refl _)]
        simp
      have hl : acc.length + 1 = (acc ++ [c]).length := by simp
      rw [hset, hl, ih (acc ++ [c]) tl (fun x hx => hrun x (List.mem_cons_of_mem _ hx))
        (by simp only [List.length_append, List.length_cons, List.length_nil] at hlen ⊢; omega)
        (by simpa using htl)]
      simp [Nat.add_assoc, Nat.add_comm 1]

theorem get_word_loop_stop (n : Nat) (k : Nat) (buf s : List Nat) (hk : 0 < k)
    (h : n ≤ k ∨ s = [] ∨ ∃ c r, s = c :: r ∧ isalpha c = false) :
    get_word_loop (n : Int) k buf s = (1, buf.set k 0, s.tail) := by
  cases s with
  | nil => simp [get_word_loop, get_word_exit, hk]
  | cons c r =>
    rw [get_word_loop]
    by_cases hlt : ((k : Nat) : Int) < (n : Int)
    · have hlt1 : k < n := by exact_mod_cast hlt
      rcases h with h | h | ⟨c1, r1, h, hc⟩
      · omega
      · simp at h
      · have : c = c1 := by simp at h; exact h.1
        subst this
        have hk0 : k ≠ 0 := by omega
        simp [hlt, hk0, hc]
    · simp [hlt, get_word_exit, hk]

/-- The tokenizer on a stream that starts with separators and then at least one letter: the
word is the run of letters, cut at the cap. -/
theorem get_word_run (n : Nat) (buf sep run rest : List Nat) (hn : 1 ≤ n)
    (hb : n < buf.length) (hsep : ∀ c ∈ sep, isalpha c = false)
    (hrun : ∀ c ∈ run, isalpha c = true) (hne : run ≠ []) (hlen : run.length ≤ n)
    (hrest : run.length = n ∨ rest = [] ∨ ∃ c r, rest = c :: r ∧ isalpha c = false) :
    get_word buf (n : Int) (sep ++ run ++ rest) =
      (1, run ++ 0 :: buf.drop (run.length + 1), rest.tail) := by
  unfold get_word
  rw [List.append_assoc, get_word_loop_skip n hn buf sep _ hsep]
  have h1 := get_word_loop_letters n [] buf run rest hrun (by simpa using hlen) (by omega)
  simp only [List.length_nil, List.nil_append, Nat.zero_add] at h1
  rw [h1]
  have hpos : 0 < run.length := List.length_pos.2 hne
  rw [get_word_loop_stop n run.length _ rest hpos
    (hrest.imp (fun h => by omega) (fun h => h))]
  congr 2
  have hd : List.drop run.length buf ≠ [] := by
    intro h; rw [List.drop_eq_nil_iff] at h; omega
  obtain ⟨t, tl, htl⟩ := List.exists_cons_of_ne_nil hd
  rw [List.set_append_right _ _ (le_refl _), htl]
  have : List.drop (run.length + 1) buf = tl := by
    rw [← List.drop_drop, htl]
    rfl
  simp [this]

theorem get_word_none (n : Nat) (buf sep : List Nat) (hn : 1 ≤ n)
    (hsep : ∀ c ∈ sep, isalpha c = false) :
    get_word buf (n : Int) sep = (0, buf, []) := by
  unfold get_word
  have := get_word_loop_skip n hn buf sep [] hsep
  rw [List.append_nil] at this
  rw [this, get_word_loop_nil]

/-! ## The maximal alphabetic runs of a stream -/

theorem alpha_runs_from_sep (sep s : List Nat) (hsep : ∀ c ∈ sep, isalpha c = false) :
    alpha_runs_from [] (sep ++ s) = alpha_runs_from [] s := by
  induction sep with
  | nil => rfl
  | cons c sep ih =>
    have hc : isalpha c = false := hsep c (List.mem_cons_self _ _)
    rw [List.cons_append, alpha_runs_from]
    simp only [hc, Bool.false_eq_true, if_false, if_true]
    exact ih (fun x hx => hsep x (List.mem_cons_of_mem _ hx))

theorem alpha_runs_from_letters (cur run s : List Nat) (hrun : ∀ c ∈ run, isalpha c = true) :
    alpha_runs_from cur (run ++ s) = alpha_runs_from (cur ++ run) s := by
  induction run generalizing cur with
  | nil => simp
  | cons c run ih =>
    have hc : isalpha c = true := hrun c (List.mem_cons_self _ _)
    rw [List.cons_append, alpha_runs_from]
    simp only [hc, if_true]
    rw [ih _ (fun x hx => hrun x (List.mem_cons_of_mem _ hx))]
    simp

theorem alpha_runs_from_close (cur s : List Nat) (hcur : cur ≠ [])
    (hs : s = [] ∨ ∃ c r, s = c :: r ∧ isalpha c = false) :
    alpha_runs_from cur s = cur :: alpha_runs_from [] s := by
  rcases hs with hs | ⟨c, r, hs, hc⟩
  · subst hs; simp [alpha_runs_from, hcur]
  · subst hs; simp [alpha_runs_from, hcur, hc]

theorem alpha_runs_split (sep run rest : List Nat) (hsep : ∀ c ∈ sep, isalpha c = false)
    (hrun : ∀ c ∈ run, isalpha c = true) (hne : run ≠ [])
    (hrest : rest = [] ∨ ∃ c r, rest = c :: r ∧ isalpha c = false) :
    alpha_runs (sep ++ run ++ rest) = run :: alpha_runs rest := by
  unfold alpha_runs
  rw [List.append_assoc, alpha_runs_from_sep sep _ hsep, alpha_runs_from_letters [] run rest hrun,
    List.nil_append, alpha_runs_from_close run rest hne hrest]

theorem alpha_runs_sep (sep : List Nat) (hsep : ∀ c ∈ sep, isalpha c = false) :
    alpha_runs sep = [] := by
  have := alpha_runs_from_sep sep [] hsep
  rw [List.append_nil] at this
  unfold alpha_runs
  rw [this]; rfl

theorem alpha_runs_tail (rest : List Nat)
    (hrest : rest = [] ∨ ∃ c r, rest = c :: r ∧ isalpha c = false) :
    alpha_runs rest.tail = alpha_runs rest := by
  rcases hrest with h | ⟨c, r, h, hc⟩
  · subst h; rfl
  · subst h
    simp [alpha_runs, alpha_runs_from, hc]

/-- Every stream with a letter is a block of separators, then a maximal non-empty run of
letters, then a remainder that is empty or starts with a separator. -/
theorem stream_split (s : List Nat) (h : ∃ c ∈ s, isalpha c = true) :
    ∃ sep run rest, s = sep ++ run ++ rest ∧ (∀ c ∈ sep, isalpha c = false) ∧
      (∀ c ∈ run, isalpha c = true) ∧ run ≠ [] ∧
      (rest = [] ∨ ∃ c r, rest = c :: r ∧ isalpha c = false) := by
  induction s with
  | nil => obtain ⟨c, hc, _⟩ := h; simp at hc
  | cons a s ih =>
    by_cases ha : isalpha a = true
    · refine ⟨[], a :: s.takeWhile isalpha, s.dropWhile isalpha, ?_, ?_, ?_, ?_, ?_⟩
      · simp
      · simp
      · intro c hc
        rcases List.mem_cons.1 hc with h1 | h1
        · rw [h1]; exact ha
        · exact (List.mem_takeWhile_imp h1)
      · simp
      · cases hd : s.dropWhile isalpha with
        | nil => left; rfl
        | cons c r =>
          right
          refine ⟨c, r, rfl, ?_⟩
          have := List.head?_dropWhile_not isalpha s
          rw [hd] at this
          simpa using this
    · have ha1 : isalpha a = false := by simpa using ha
      obtain ⟨c, hc, hca⟩ := h
      have hc1 : c ∈ s := by
        rcases List.mem_cons.1 hc with h1 | h1
        · rw [h1] at hca; exact absurd hca ha
        · exact h1
      obtain ⟨sep, run, rest, hs, hsep, hrun, hne, hrest⟩ := ih ⟨c, hc1, hca⟩
      refine ⟨a :: sep, run, rest, by rw [hs]; simp, ?_, hrun, hne, hrest⟩
      intro x hx
      rcases List.mem_cons.1 hx with h1 | h1
      · rw [h1]; exact ha1
      · exact hsep x h1

theorem no_letter_or_letter (s : List Nat) :
    (∀ c ∈ s, isalpha c = false) ∨ ∃ c ∈ s, isalpha c = true := by
  by_cases h : ∃ c ∈ s, isalpha c = true
  · exact Or.inr h
  · left
    intro c hc
    by_contra hne
    exact h ⟨c, hc, by simpa using hne⟩

/-! ## The return value of the tokenizer -/

theorem get_word_loop_indep (n : Int) (s : List Nat) :
    ∀ (k : Nat) (buf buf1 : List Nat),
      (get_word_loop n k buf s).1 = (get_word_loop n k buf1 s).1 ∧
      (get_word_loop n k buf s).2.2 = (get_word_loop n k buf1 s).2.2 := by
  induction s with
  | nil =>
    intro k buf buf1
    simp only [get_word_loop, get_word_exit]
    split_ifs <;> exact ⟨rfl, rfl⟩
  | cons c s ih =>
    intro k buf buf1
    simp only [get_word_loop, get_word_exit]
    split_ifs <;> first | exact ⟨rfl, rfl⟩ | exact ih _ _ _

theorem append_split (n : Nat) (sep run rest : List Nat) :
    sep ++ run ++ rest = sep ++ run.take n ++ (run.drop n ++ rest) := by
  have h : run.take n ++ (run.drop n ++ rest) = run ++ rest := by
    rw [← List.append_assoc, List.take_append_drop]
  rw [List.append_assoc, List.append_assoc, h]

theorem stream_split_cap (n : Nat) (hn : 1 ≤ n) (s : List Nat)
    (h : ∃ c ∈ s, isalpha c = true) :
    ∃ sep w rest, s = sep ++ w ++ rest ∧ (∀ c ∈ sep, isalpha c = false) ∧
      (∀ c ∈ w, isalpha c = true) ∧ w ≠ [] ∧ w.length ≤ n ∧
      (w.length = n ∨ rest = [] ∨ ∃ c r, rest = c :: r ∧ isalpha c = false) := by
  obtain ⟨sep, run, rest, hs, hsep, hrun, hne, hrest⟩ := stream_split s h
  refine ⟨sep, run.take n, run.drop n ++ rest, ?_, hsep,
    fun c hc => hrun c (List.mem_of_mem_take hc), ?_, List.length_take_le _ _, ?_⟩
  · rw [hs]; exact append_split n sep run rest
  · intro h0
    have hl : (run.take n).length = 0 := by rw [h0]; rfl
    rw [List.length_take] at hl
    have := List.length_pos.2 hne
    omega
  · by_cases hl : n ≤ run.length
    · left; rw [List.length_take]; omega
    · right
      rw [List.drop_eq_nil_of_le (by omega), List.nil_append]
      exact hrest

theorem get_word_ret_letter (m : Nat) (hm : 1 ≤ m) (buf s : List Nat)
    (h : ∃ c ∈ s, isalpha c = true) :
    (get_word buf (m : Int) s).1 = 1 ∧
      (m < buf.length → c_str (get_word buf (m : Int) s).2.1 ≠ []) := by
  obtain ⟨sep, w, rest, hs, hsep, hw, hne, hlen, hrest⟩ := stream_split_cap m hm s h
  constructor
  · have h1 := (get_word_loop_indep (m : Int) s 0 buf (List.replicate (m + 1) 0)).1
    have h2 := get_word_run m (List.replicate (m + 1) 0) sep w rest hm
      (by rw [List.length_replicate]; omega) hsep hw hne hlen hrest
    unfold get_word at h2 ⊢
    rw [h1, hs, h2]
  · intro hb
    rw [hs, get_word_run m buf sep w rest hm hb hsep hw hne hlen hrest]
    show c_str (w ++ 0 :: List.drop (w.length + 1) buf) ≠ []
    rw [c_str_append_zero w _ hw]
    exact hne

/-! ## The worker loop -/

theorem words_loop_mono {f : Nat} {sd : Dict} {buf s : List Nat}
    {r : Dict × List Nat × List Nat} (h : words_loop f sd buf s = some r) (f1 : Nat)
    (hf : f ≤ f1) : words_loop f1 sd buf s = some r := by
  induction f generalizing sd buf s f1 with
  | zero => simp [words_loop] at h
  | succ f ih =>
    cases f1 with
    | zero => omega
    | succ f1 =>
      simp only [words_loop] at h ⊢
      split_ifs at h ⊢ with h1
      · exact ih h f1 (by omega)
      · exact h

theorem words_loop_step (fuel : Nat) (sd : Dict) (buf sep run rest : List Nat)
    (hb : MAXWORD < buf.length) (hsep : ∀ c ∈ sep, isalpha c = false)
    (hrun : ∀ c ∈ run, isalpha c = true) (hne : run ≠ []) (hlen : run.length ≤ MAXWORD)
    (hrest : run.length = MAXWORD ∨ rest = [] ∨ ∃ c r, rest = c :: r ∧ isalpha c = false) :
    words_loop (fuel + 1) sd buf (sep ++ run ++ rest) =
      words_loop fuel (insert_word sd run) (run ++ 0 :: buf.drop (run.length + 1)) rest.tail := by
  rw [words_loop, get_word_run MAXWORD buf sep run rest (by decide) hb hsep hrun hne hlen hrest]
  simp only [ne_eq, one_ne_zero, not_false_eq_true, if_true]
  rw [c_str_append_zero run _ hrun]

theorem words_loop_done (fuel : Nat) (sd : Dict) (buf sep : List Nat)
    (hsep : ∀ c ∈ sep, isalpha c = false) :
    words_loop (fuel + 1) sd buf sep = some (sd, buf, []) := by
  rw [words_loop, get_word_none MAXWORD buf sep (by decide) hsep]
  simp

theorem length_word_buf (run buf : List Nat) (h : run.length < buf.length) :
    (run ++ 0 :: buf.drop (run.length + 1)).length = buf.length := by
  simp only [List.length_append, List.length_cons, List.length_drop]
  omega

/-- The worker on a stream whose maximal runs have at most `MAXWORD + 1` letters: it ends, and
the dictionary is the result of one upsert per run, each run cut to its first `MAXWORD`
letters. -/
theorem words_loop_runs (k : Nat) :
    ∀ (s : List Nat), s.length = k → ∀ (sd : Dict) (buf : List Nat), MAXWORD < buf.length →
      (∀ r ∈ alpha_runs s, r.length ≤ MAXWORD + 1) →
      ∃ buf1, buf1.length = buf.length ∧ words_loop (s.length + 1) sd buf s =
        some (insert_all sd ((alpha_runs s).map (List.take MAXWORD)), buf1, []) := by
  induction k using Nat.strong_induction_on with
  | _ k ih =>
    intro s hk sd buf hb hruns
    rcases no_letter_or_letter s with hno | hex
    · refine ⟨buf, rfl, ?_⟩
      rw [words_loop_done _ sd buf s hno, alpha_runs_sep s hno]
      rfl
    · obtain ⟨sep, run, rest, hs, hsep, hrun, hne, hrest⟩ := stream_split s hex
      have har : alpha_runs s = run :: alpha_runs rest := by
        rw [hs]; exact alpha_runs_split sep run rest hsep hrun hne hrest
      have hrl : run.length ≤ MAXWORD + 1 := hruns run (by rw [har]; exact List.mem_cons_self _ _)
      have hruns1 : ∀ r ∈ alpha_runs rest, r.length ≤ MAXWORD + 1 := fun r hr =>
        hruns r (by rw [har]; exact List.mem_cons_of_mem _ hr)
      have hlen : s.length = sep.length + run.length + rest.length := by
        rw [hs]; simp only [List.length_append]
      have hpos : 0 < run.length := List.length_pos.2 hne
      by_cases hcap : run.length ≤ MAXWORD
      · -- the whole run is the word; the delimiter after it is consumed
        have hstep := words_loop_step s.length sd buf sep run rest hb hsep hrun hne hcap
          (Or.inr hrest)
        have hlt : rest.tail.length < k := by
          rw [← hk, hlen, List.length_tail]; omega
        have hruns2 : ∀ r ∈ alpha_runs rest.tail, r.length ≤ MAXWORD + 1 := by
          rw [alpha_runs_tail rest hrest]; exact hruns1
        have hb1 : MAXWORD < (run ++ 0 :: buf.drop (run.length + 1)).length := by
          rw [length_word_buf run buf (by omega)]; exact hb
        obtain ⟨buf1, hbl, hres⟩ := ih rest.tail.length hlt rest.tail rfl
          (insert_word sd run) _ hb1 hruns2
        refine ⟨buf1, by rw [hbl, length_word_buf run buf (by omega)], ?_⟩
        rw [← hs] at hstep
        rw [hstep, words_loop_mono hres s.length (by rw [hk]; omega), har,
          alpha_runs_tail rest hrest]
        simp [insert_all, List.take_of_length_le hcap]
      · -- the run has `MAXWORD + 1` letters; the last one is consumed and dropped
        have hrl1 : run.length = MAXWORD + 1 := by omega
        have hsplit : run = run.take MAXWORD ++ run.drop MAXWORD :=
          (List.take_append_drop MAXWORD run).symm
        have hdl : (run.drop MAXWORD).length = 1 := by
          rw [List.length_drop, hrl1]; omega
        obtain ⟨x, hx⟩ := List.length_eq_one.1 hdl
        have htl : (run.take MAXWORD).length = MAXWORD := by
          rw [List.length_take, hrl1]; omega
        have hs1 : s = sep ++ run.take MAXWORD ++ (x :: rest) := by
          rw [hs]; conv_lhs => rw [hsplit, hx]
          simp
        have hstep := words_loop_step s.length sd buf sep (run.take MAXWORD) (x :: rest) hb hsep
          (fun c hc => hrun c (List.mem_of_mem_take hc))
          (by intro h; rw [h] at htl; simp [MAXWORD] at htl) (by omega) (Or.inl htl)
        have hlt : rest.length < k := by
          rw [← hk, hlen]; omega
        have hb1 : MAXWORD <
            (run.take MAXWORD ++ 0 :: buf.drop ((run.take MAXWORD).length + 1)).length := by
          rw [length_word_buf _ buf (by omega)]; exact hb
        obtain ⟨buf1, hbl, hres⟩ := ih rest.length hlt rest rfl
          (insert_word sd (run.take MAXWORD)) _ hb1 hruns1
        refine ⟨buf1, by rw [hbl, length_word_buf _ buf (by omega)], ?_⟩
        rw [← hs1] at hstep
        rw [hstep, List.tail_cons, words_loop_mono hres s.length (by rw [hk]; omega), har]
        simp [insert_all]

/-! ## Termination of the worker loop -/

theorem get_word_loop_length (n : Int) (s : List Nat) :
    ∀ (k : Nat) (buf : List Nat), (get_word_loop n k buf s).2.2.length ≤ s.length := by
  induction s with
  | nil =>
    intro k buf
    simp only [get_word_loop, get_word_exit]
    split_ifs <;> exact le_refl _
  | cons c s ih =>
    intro k buf
    simp only [get_word_loop, get_word_exit, List.length_cons]
    split_ifs <;> first | exact Nat.le_succ _ | exact Nat.le_succ_of_le (ih _ _)

theorem get_word_consumes (n : Int) (buf s : List Nat) (h : (get_word buf n s).1 ≠ 0) :
    (get_word buf n s).2.2.length < s.length := by
  unfold get_word at h ⊢
  cases s with
  | nil => simp [get_word_loop, get_word_exit] at h
  | cons c s =>
    simp only [get_word_loop, get_word_exit, List.length_cons]
    split_ifs <;> first | exact Nat.lt_succ_self _ | exact Nat.lt_succ_of_le (get_word_loop_length n s _ _)

/-- The worker loop ends on every stream: one iteration per character and one more suffice. -/
theorem words_loop_total (fuel : Nat) :
    ∀ (s : List Nat) (sd : Dict) (buf : List Nat), s.length < fuel →
      ∃ r, words_loop fuel sd buf s = some r := by
  induction fuel with
  | zero => intro s sd buf hf; omega
  | succ f ih =>
    intro s sd buf hf
    rw [words_loop]
    by_cases hr : (get_word buf MAXWORD s).1 ≠ 0
    · have hlt := get_word_consumes MAXWORD buf s hr
      simp only [hr, ne_eq, not_false_eq_true, if_true]
      exact ih _ _ _ (Nat.lt_of_lt_of_le hlt (Nat.le_of_lt_succ hf))
    · simp only [hr, if_false]
      exact ⟨_, rfl⟩

/-! ## The worker on long runs -/

theorem words_dict_of_loop {f : Nat} {sd d : Dict} {buf s buf1 s1 : List Nat}
    (h : words_loop f sd buf s = some (d, buf1, s1)) (hf : f ≤ s.length + 1) :
    words_dict sd buf s = some d := by
  unfold words_dict words
  rw [words_loop_mono h _ hf]
  rfl

theorem words_dict_runs (sd : Dict) (buf s : List Nat) (hb : MAXWORD < buf.length)
    (hruns : ∀ r ∈ alpha_runs s, r.length ≤ MAXWORD + 1) :
    words_dict sd buf s = some (insert_all sd ((alpha_runs s).map (List.take MAXWORD))) := by
  obtain ⟨buf1, _, h⟩ := words_loop_runs s.length s rfl sd buf hb hruns
  exact words_dict_of_loop h (le_refl _)

theorem tail_mem_nonalpha {sep : List Nat} (hsep : ∀ c ∈ sep, isalpha c = false) :
    ∀ c ∈ sep.tail, isalpha c = false :=
  fun c hc => hsep c (List.mem_of_mem_tail hc)

theorem nonalpha_head (sep : List Nat) (hsep : ∀ c ∈ sep, isalpha c = false) :
    sep = [] ∨ ∃ c r, sep = c :: r ∧ isalpha c = false := by
  cases sep with
  | nil => exact Or.inl rfl
  | cons c r => exact Or.inr ⟨c, r, rfl, hsep c (List.mem_cons_self _ _)⟩

/-- The worker on a single run of more than `MAXWORD + 1` and at most `2 * MAXWORD + 1`
letters: two upserts, of the first `MAXWORD` letters and of the letters from position
`MAXWORD + 1` on. -/
theorem words_dict_long_run (sd : Dict) (buf sep1 run sep2 : List Nat)
    (hb : MAXWORD < buf.length) (hsep1 : ∀ c ∈ sep1, isalpha c = false)
    (hrun : ∀ c ∈ run, isalpha c = true) (hsep2 : ∀ c ∈ sep2, isalpha c = false)
    (hlo : MAXWORD + 1 < run.length) (hhi : run.length ≤ 2 * MAXWORD + 1) :
    words_dict sd buf (sep1 ++ run ++ sep2) =
      some (insert_word (insert_word sd (run.take MAXWORD)) (run.drop (MAXWORD + 1))) := by
  have htl : (run.take MAXWORD).length = MAXWORD := by
    rw [List.length_take]; omega
  have hdl : (run.drop (MAXWORD + 1)).length = run.length - (MAXWORD + 1) := List.length_drop _ _
  have hw1 : ∀ c ∈ run.take MAXWORD, isalpha c = true :=
    fun c hc => hrun c (List.mem_of_mem_take hc)
  have hw2 : ∀ c ∈ run.drop (MAXWORD + 1), isalpha c = true :=
    fun c hc => hrun c (List.mem_of_mem_drop hc)
  have hne1 : run.take MAXWORD ≠ [] := by
    intro h; rw [h] at htl; simp [MAXWORD] at htl
  have hne2 : run.drop (MAXWORD + 1) ≠ [] := by
    intro h; rw [h] at hdl; simp at hdl; omega
  have hdne : run.drop MAXWORD ≠ [] := by
    intro h
    have := congrArg List.length h
    rw [List.length_drop] at this; simp at this; omega
  have htail : (run.drop MAXWORD ++ sep2).tail = [] ++ run.drop (MAXWORD + 1) ++ sep2 := by
    rw [List.tail_append_of_ne_nil hdne, List.tail_drop, List.nil_append]
  have h1 := words_loop_step 2 sd buf sep1 (run.take MAXWORD) (run.drop MAXWORD ++ sep2) hb hsep1
    hw1 hne1 (by omega) (Or.inl htl)
  have hb1 : MAXWORD <
      (run.take MAXWORD ++ 0 :: buf.drop ((run.take MAXWORD).length + 1)).length := by
    rw [length_word_buf _ buf (by omega)]; exact hb
  have h2 := words_loop_step 1 (insert_word sd (run.take MAXWORD)) _ []
    (run.drop (MAXWORD + 1)) sep2 hb1 (by simp) hw2 hne2 (by omega)
    (Or.inr (nonalpha_head sep2 hsep2))
  have h3 := words_loop_done 0
    (insert_word (insert_word sd (run.take MAXWORD)) (run.drop (MAXWORD + 1)))
    (run.drop (MAXWORD + 1) ++ 0 :: List.drop ((run.drop (MAXWORD + 1)).length + 1)
      (run.take MAXWORD ++ 0 :: buf.drop ((run.take MAXWORD).length + 1)))
    sep2.tail (tail_mem_nonalpha hsep2)
  rw [← append_split MAXWORD sep1 run sep2, htail, h2, h3] at h1
  refine words_dict_of_loop h1 ?_
  simp only [List.length_append]
  omega

theorem strcmp_replicate_lt (a k j : Nat) (h : k < j) :
    strcmp (List.replicate k a) (List.replicate j a) = -1 := by
  induction k generalizing j with
  | zero =>
    obtain ⟨i, rfl⟩ : ∃ i, j = i + 1 := ⟨j - 1, by omega⟩
    simp [List.replicate, strcmp]
  | succ k ih =>
    obtain ⟨i, rfl⟩ : ∃ i, j = i + 1 := ⟨j - 1, by omega⟩
    simp only [List.replicate, strcmp, lt_self_iff_false, if_false]
    exact ih i (by omega)

theorem insert_word_single (e : dict_t) (w : List Nat) (h : w ≠ e.word) :
    insert_word [e] w = [e, ⟨w, 1⟩] ∨ insert_word [e] w = [⟨w, 1⟩, e] := by
  have hne : ¬ strcmp w e.word = 0 := fun h0 => h ((strcmp_eq_zero_iff _ _).1 h0)
  simp only [insert_word]
  by_cases h1 : strcmp w e.word ≥ 0
  · left; rw [if_pos h1, if_neg hne]; rfl
  · right; rw [if_neg h1]; rfl

theorem alpha_runs_repeat (k : Nat) :
    alpha_runs (List.replicate k [97, 32]).flatten = List.replicate k [97] := by
  induction k with
  | zero => rfl
  | succ k ih =>
    have h : (List.replicate (k + 1) [97, 32]).flatten =
        [] ++ [97] ++ (32 :: (List.replicate k [97, 32]).flatten) := by
      rw [List.replicate_succ, List.flatten_cons]; rfl
    rw [h, alpha_runs_split [] [97] _ (by simp) (by decide) (by simp)
      (Or.inr ⟨32, _, rfl, by decide⟩)]
    have h1 := alpha_runs_tail (32 :: (List.replicate k [97, 32]).flatten)
      (Or.inr ⟨32, _, rfl, by decide⟩)
    rw [List.tail_cons] at h1
    rw [← h1, ih, List.replicate_succ]

/-! ## Words of the stream and entries kept by an upsert -/

theorem get_word_infix (n : Nat) (hn : 1 ≤ n) (buf s : List Nat) (hb : n < buf.length)
    (h : (get_word buf (n : Int) s).1 ≠ 0) :
    c_str (get_word buf (n : Int) s).2.1 <:+: s := by
  rcases no_letter_or_letter s with hno | hex
  · rw [get_word_none n buf s hn hno] at h
    exact absurd rfl h
  · obtain ⟨sep, w, rest, hs, hsep, hw, hne, hlen, hrest⟩ := stream_split_cap n hn s hex
    rw [hs, get_word_run n buf sep w rest hn hb hsep hw hne hlen hrest]
    show c_str (w ++ 0 :: List.drop (w.length + 1) buf) <:+: sep ++ w ++ rest
    rw [c_str_append_zero w _ hw]
    exact ⟨sep, rest, rfl⟩

theorem mem_insert_word_of_ne {d : Dict} {w : List Nat} {e : dict_t} (he : e ∈ d)
    (hne : e.word ≠ w) : e ∈ insert_word d w := by
  induction d with
  | nil => simp at he
  | cons di next ih =>
    simp only [insert_word]
    split_ifs with h1 h2
    · rcases List.mem_cons.1 he with h | h
      · subst h
        exact absurd ((strcmp_eq_zero_iff _ _).1 h2).symm hne
      · exact List.mem_cons_of_mem _ h
    · rcases List.mem_cons.1 he with h | h
      · rw [h]; exact List.mem_cons_self _ _
      · exact List.mem_cons_of_mem _ (ih h)
    · exact List.mem_cons_of_mem _ he

/-! ## The recorded events -/

theorem get_word_loop_tr_fst (n : Int) (s : List Nat) :
    ∀ (k : Nat) (buf : List Nat), (get_word_loop_tr n k buf s).1 = get_word_loop n k buf s := by
  induction s with
  | nil =>
    intro k buf
    simp only [get_word_loop_tr, get_word_loop, get_word_exit_tr, get_word_exit]
    split_ifs <;> rfl
  | cons c s ih =>
    intro k buf
    simp only [get_word_loop_tr, get_word_loop, get_word_exit_tr, get_word_exit]
    split_ifs <;> first | rfl | exact ih _ _

theorem get_word_tr_fst (buf : List Nat) (n : Int) (s : List Nat) :
    (get_word_tr buf n s).1 = get_word buf n s :=
  get_word_loop_tr_fst n s 0 buf

theorem insert_word_loop_tr_fst (d : Dict) (w : List Nat) :
    (insert_word_loop_tr d w).1 = insert_word d w := by
  induction d with
  | nil => rfl
  | cons di next ih =>
    simp only [insert_word_loop_tr, insert_word]
    split_ifs
    · rfl
    · rw [ih]
    · rfl

theorem insert_word_tr_fst (d : Dict) (w : List Nat) :
    (insert_word_tr d w).1 = insert_word d w :=
  insert_word_loop_tr_fst d w

theorem words_loop_tr_fst (fuel : Nat) :
    ∀ (sd : Dict) (buf s : List Nat),
      (words_loop_tr fuel sd buf s).map (fun q => q.1) = words_loop fuel sd buf s := by
  induction fuel with
  | zero => intro sd buf s; rfl
  | succ f ih =>
    intro sd buf s
    simp only [words_loop_tr, words_loop, get_word_tr_fst, insert_word_tr_fst]
    split_ifs with h
    · rw [Option.map_map, ← ih]
      rfl
    · rfl

theorem words_tr_fst (sd : Dict) (buf s : List Nat) :
    (words_tr sd buf s).map (fun q => q.1) = words sd buf s := by
  unfold words_tr words
  rw [Option.map_map, ← words_loop_tr_fst]
  rfl

/-- The events of the loop of `get_word`: stores, then the unlock. -/
theorem get_word_loop_tr_events (n : Int) (s : List Nat) :
    ∀ (k : Nat) (buf : List Nat),
      mutex_events (get_word_loop_tr n k buf s).2 = [event_t.unlock mutex_t.gw_mutex] ∧
      (get_word_loop_tr n k buf s).2.getLast? = some (event_t.unlock mutex_t.gw_mutex) := by
  induction s with
  | nil =>
    intro k buf
    simp only [get_word_loop_tr, get_word_exit_tr]
    split_ifs <;> exact ⟨rfl, rfl⟩
  | cons c s ih =>
    intro k buf
    simp only [get_word_loop_tr, get_word_exit_tr]
    split_ifs
    · exact ⟨rfl, rfl⟩
    · obtain ⟨h1, h2⟩ := ih (k + 1) (buf.set k c)
      refine ⟨?_, ?_⟩
      · simp only [mutex_events, List.filter_cons] at h1 ⊢
        exact h1
      · rw [List.getLast?_cons, h2]; rfl
    · exact ih _ _
    · exact ⟨rfl, rfl⟩
    · exact ⟨rfl, rfl⟩

theorem insert_word_loop_tr_events (d : Dict) (w : List Nat) :
    (insert_word_loop_tr d w).2 = [event_t.unlock mutex_t.sd_lock] ∨
      (insert_word_loop_tr d w).2 = make_dict_tr ++ [event_t.unlock mutex_t.sd_lock] := by
  induction d with
  | nil => exact Or.inr rfl
  | cons di next ih =>
    simp only [insert_word_loop_tr]
    split_ifs
    · exact Or.inl rfl
    · exact ih
    · exact Or.inr rfl

theorem held_from_append (m : mutex_t) (h : Bool) (a b : List event_t) :
    held_from m h (a ++ b) = held_from m (held_from m h a) b := by
  simp [held_from, List.foldl_append]

theorem nest_free_append (a b : List event_t) :
    ∀ (g s : Bool), nest_free g s (a ++ b) =
      (nest_free g s a &&
        nest_free (held_from mutex_t.gw_mutex g a) (held_from mutex_t.sd_lock s a) b) := by
  induction a with
  | nil =>
    intro g s
    cases b with
    | nil => simp [nest_free, held_from]
    | cons e es => simp [nest_free, held_from]
  | cons e es ih =>
    intro g s
    show (!(g && s) && nest_free (step_held mutex_t.gw_mutex g e)
      (step_held mutex_t.sd_lock s e) (es ++ b)) = _
    rw [ih]
    simp only [nest_free, held_from, List.foldl_cons, Bool.and_assoc]

/-- The checker `nest_free` is sound for the property on prefixes. -/
theorem nest_free_prefix (tr : List event_t) :
    ∀ (g s : Bool), nest_free g s tr = true → ∀ p, p <+: tr →
      ¬ (held_from mutex_t.gw_mutex g p = true ∧ held_from mutex_t.sd_lock s p = true) := by
  induction tr with
  | nil =>
    intro g s h p hp
    rw [List.prefix_nil] at hp
    subst hp
    simp only [nest_free] at h
    simp only [held_from, List.foldl_nil]
    intro hgs
    rw [hgs.1, hgs.2] at h
    exact absurd h (by decide)
  | cons e es ih =>
    intro g s h p hp
    simp only [nest_free, Bool.and_eq_true] at h
    cases p with
    | nil =>
      simp only [held_from, List.foldl_nil]
      intro hgs
      rw [hgs.1, hgs.2] at h
      exact absurd h.1 (by decide)
    | cons e1 p1 =>
      obtain ⟨he, hp1⟩ := List.cons_prefix_cons.1 hp
      subst he
      exact ih _ _ h.2 p1 hp1

theorem get_word_loop_tr_nest (n : Int) (s : List Nat) :
    ∀ (k : Nat) (buf : List Nat),
      nest_free true false (get_word_loop_tr n k buf s).2 = true ∧
      held_from mutex_t.gw_mutex true (get_word_loop_tr n k buf s).2 = false ∧
      held_from mutex_t.sd_lock false (get_word_loop_tr n k buf s).2 = false := by
  induction s with
  | nil =>
    intro k buf
    simp only [get_word_loop_tr, get_word_exit_tr]
    split_ifs <;> exact ⟨rfl, rfl, rfl⟩
  | cons c s ih =>
    intro k buf
    simp only [get_word_loop_tr, get_word_exit_tr]
    split_ifs
    · exact ⟨rfl, rfl, rfl⟩
    · exact ih (k + 1) (buf.set k c)
    · exact ih _ _
    · exact ⟨rfl, rfl, rfl⟩
    · exact ⟨rfl, rfl, rfl⟩

theorem get_word_tr_nest (buf : List Nat) (n : Int) (s : List Nat) :
    nest_free false false (get_word_tr buf n s).2 = true ∧
      held_from mutex_t.gw_mutex false (get_word_tr buf n s).2 = false ∧
      held_from mutex_t.sd_lock false (get_word_tr buf n s).2 = false :=
  get_word_loop_tr_nest n s 0 buf

theorem insert_word_tr_nest (d : Dict) (w : List Nat) :
    nest_free false false (insert_word_tr d w).2 = true ∧
      held_from mutex_t.gw_mutex false (insert_word_tr d w).2 = false ∧
      held_from mutex_t.sd_lock false (insert_word_tr d w).2 = false := by
  unfold insert_word_tr
  rcases insert_word_loop_tr_events d w with h | h <;> rw [h] <;> exact ⟨rfl, rfl, rfl⟩

theorem words_loop_tr_nest (fuel : Nat) :
    ∀ (sd : Dict) (buf s : List Nat) (q : (Dict × List Nat × List Nat) × List event_t),
      words_loop_tr fuel sd buf s = some q →
      nest_free false false q.2 = true ∧
      held_from mutex_t.gw_mutex false q.2 = false ∧
      held_from mutex_t.sd_lock false q.2 = false := by
  induction fuel with
  | zero => intro sd buf s q h; simp [words_loop_tr] at h
  | succ f ih =>
    intro sd buf s q h
    simp only [words_loop_tr] at h
    split_ifs at h with hr
    · obtain ⟨q1, hq1, hq⟩ := Option.map_eq_some'.1 h
      obtain ⟨i1, i2, i3⟩ := ih _ _ _ q1 hq1
      obtain ⟨g1, g2, g3⟩ := get_word_tr_nest buf MAXWORD s
      obtain ⟨w1, w2, w3⟩ := insert_word_tr_nest sd (c_str (get_word_tr buf MAXWORD s).1.2.1)
      rw [← hq]
      simp only [nest_free_append, held_from_append, g1, g2, g3, w1, w2, w3, i1, i2, i3,
        Bool.and_self]
      exact ⟨trivial, trivial, trivial⟩
    · rw [← Option.some.inj h]
      exact get_word_tr_nest buf MAXWORD s

theorem words_tr_total (sd : Dict) (buf s : List Nat) :
    ∃ q, words_tr sd buf s = some q := by
  obtain ⟨r, hr⟩ := words_loop_total (s.length + 1) s sd buf (Nat.lt_succ_self _)
  have h := words_loop_tr_fst (s.length + 1) sd buf s
  rw [hr] at h
  obtain ⟨q, hq, _⟩ := Option.map_eq_some'.1 h
  exact ⟨_, by unfold words_tr; rw [hq]; rfl⟩

theorem words_tr_nest (sd : Dict) (buf s : List Nat)
    (q : (Dict × List Nat × List Nat) × List event_t) (h : words_tr sd buf s = some q) :
    nest_free false false q.2 = true ∧ holds mutex_t.gw_mutex q.2 = false ∧
      holds mutex_t.sd_lock q.2 = false := by
  unfold words_tr at h
  obtain ⟨q1, hq1, hq⟩ := Option.map_eq_some'.1 h
  obtain ⟨i1, i2, i3⟩ := words_loop_tr_nest _ _ _ _ q1 hq1
  rw [← hq]
  unfold holds
  simp only [nest_free_append, held_from_append]
  refine ⟨?_, ?_, ?_⟩
  · have : nest_free false false mymalloc_tr = true := rfl
    rw [this]
    exact i1
  · exact i2
  · exact i3

theorem get_word_loop_tr_sep (n : Int) (buf sep : List Nat)
    (hsep : ∀ c ∈ sep, isalpha c = false) :
    (get_word_loop_tr n 0 buf sep).2 = [event_t.unlock mutex_t.gw_mutex] := by
  induction sep with
  | nil => rfl
  | cons c sep ih =>
    have hc : isalpha c = false := hsep c (List.mem_cons_self _ _)
    simp only [get_word_loop_tr, get_word_exit_tr, ne_eq, not_true_eq_false, false_and,
      if_false, hc, Bool.false_eq_true, gt_iff_lt, lt_self_iff_false]
    split_ifs
    · exact ih (fun x hx => hsep x (List.mem_cons_of_mem _ hx))
    · rfl

theorem get_word_loop_tr_stores (n : Int) (s : List Nat) :
    ∀ (k : Nat) (buf : List Nat), (k : Int) ≤ n →
      (∀ p ∈ stores (get_word_loop_tr n k buf s).2,
        k ≤ p.1 ∧ (p.1 : Int) ≤ n ∧ (p.2 ≠ 0 → (p.1 : Int) < n ∧ isalpha p.2 = true)) ∧
      (get_word_loop_tr n k buf s).1.2.1 =
        apply_stores buf (stores (get_word_loop_tr n k buf s).2) := by
  induction s with
  | nil =>
    intro k buf hk
    simp only [get_word_loop_tr, get_word_exit_tr]
    split_ifs
    · refine ⟨?_, rfl⟩
      intro p hp
      simp only [stores, List.filterMap_cons, List.filterMap_nil, List.mem_singleton] at hp
      subst hp
      exact ⟨le_refl _, hk, fun h => absurd rfl h⟩
    · exact ⟨fun p hp => by simp [stores] at hp, rfl⟩
  | cons c s ih =>
    intro k buf hk
    simp only [get_word_loop_tr, get_word_exit_tr]
    split_ifs with h1 h2 h3 h4
    · refine ⟨?_, rfl⟩
      intro p hp
      simp only [stores, List.filterMap_cons, List.filterMap_nil, List.mem_singleton] at hp
      subst hp
      exact ⟨le_refl _, hk, fun h => absurd rfl h⟩
    · obtain ⟨i1, i2⟩ := ih (k + 1) (buf.set k c) (by push_cast; omega)
      refine ⟨?_, ?_⟩
      · intro p hp
        simp only [stores, List.filterMap_cons, List.mem_cons] at hp
        rcases hp with hp | hp
        · subst hp
          exact ⟨le_refl _, hk, fun _ => ⟨h1, h3⟩⟩
        · obtain ⟨a, b, c1⟩ := i1 p hp
          exact ⟨by omega, b, c1⟩
      · rw [i2]
        simp only [stores, List.filterMap_cons, apply_stores, List.foldl_cons]
    · exact ih k buf hk
    · refine ⟨?_, rfl⟩
      intro p hp
      simp only [stores, List.filterMap_cons, List.filterMap_nil, List.mem_singleton] at hp
      subst hp
      exact ⟨le_refl _, hk, fun h => absurd rfl h⟩
    · exact ⟨fun p hp => by simp [stores] at hp, rfl⟩

theorem get_word_word_bounds (n : Nat) (hn : 1 ≤ n) (buf s : List Nat) (hb : n < buf.length)
    (h : (get_word buf (n : Int) s).1 ≠ 0) :
    1 ≤ (c_str (get_word buf (n : Int) s).2.1).length ∧
      (c_str (get_word buf (n : Int) s).2.1).length ≤ n ∧
      ∀ c ∈ c_str (get_word buf (n : Int) s).2.1, isalpha c = true := by
  rcases no_letter_or_letter s with hno | hex
  · rw [get_word_none n buf s hn hno] at h
    exact absurd rfl h
  · obtain ⟨sep, w, rest, hs, hsep, hw, hne, hlen, hrest⟩ := stream_split_cap n hn s hex
    rw [hs, get_word_run n buf sep w rest hn hb hsep hw hne hlen hrest]
    show 1 ≤ (c_str (w ++ 0 :: List.drop (w.length + 1) buf)).length ∧
      (c_str (w ++ 0 :: List.drop (w.length + 1) buf)).length ≤ n ∧
      ∀ c ∈ c_str (w ++ 0 :: List.drop (w.length + 1) buf), isalpha c = true
    rw [c_str_append_zero w _ hw]
    exact ⟨List.length_pos.2 hne, hlen, hw⟩

/-! ## What one call of the tokenizer consumes -/

/-- Consumption of one `get_word` call that returns a word, for a cap `n ≥ 1`. -/
theorem get_word_rest (n : Nat) (hn : 1 ≤ n) (buf s : List Nat) (hb : n < buf.length)
    (h : (get_word buf (n : Int) s).1 ≠ 0) :
    ∃ sep rest, s = sep ++ c_str (get_word buf (n : Int) s).2.1 ++ rest ∧
      (∀ c ∈ sep, isalpha c = false) ∧
      (get_word buf (n : Int) s).2.2 = rest.tail ∧
      ((c_str (get_word buf (n : Int) s).2.1).length = n ∨ rest = [] ∨
        ∃ c r, rest = c :: r ∧ isalpha c = false) := by
  rcases no_letter_or_letter s with hno | hex
  · rw [get_word_none n buf s hn hno] at h
    exact absurd rfl h
  · obtain ⟨sep, w, rest, hs, hsep, hw, hne, hlen, hrest⟩ := stream_split_cap n hn s hex
    have hg := get_word_run n buf sep w rest hn hb hsep hw hne hlen hrest
    rw [← hs] at hg
    have hc : c_str (get_word buf (n : Int) s).2.1 = w := by
      rw [hg]; exact c_str_append_zero w _ hw
    refine ⟨sep, rest, by rw [hc]; exact hs, hsep, by rw [hg], ?_⟩
    rw [hc]; exact hrest

theorem tail_eq_drop (sep w rest s : List Nat) (hs : s = sep ++ w ++ rest) :
    rest.tail = s.drop (sep.length + w.length + 1) := by
  subst hs
  rw [← List.length_append, ← List.drop_drop, List.drop_left, List.drop_one]

/-! ## Runs of several threads in `insert_word` -/

theorem set_decomp {α : Type} (l : List α) :
    ∀ (t : Nat) (a : α), l[t]? = some a →
      ∃ l1 l2, l = l1 ++ a :: l2 ∧ ∀ b, l.set t b = l1 ++ b :: l2 := by
  induction l with
  | nil => intro t a h; simp at h
  | cons x l ih =>
    intro t a h
    cases t with
    | zero =>
      simp only [List.getElem?_cons_zero, Option.some.injEq] at h
      subst h
      exact ⟨[], l, rfl, fun b => rfl⟩
    | succ t =>
      simp only [List.getElem?_cons_succ] at h
      obtain ⟨l1, l2, h1, h2⟩ := ih t a h
      exact ⟨x :: l1, l2, by rw [h1]; rfl, fun b => by rw [List.set_cons_succ, h2]; rfl⟩

theorem unique_inside (l1 : List thread_t) :
    ∀ (m1 l2 m2 : List thread_t) (h th : thread_t), l1 ++ h :: l2 = m1 ++ th :: m2 →
      (∀ x ∈ l1, x.pc = pc_t.idle) → (∀ x ∈ l2, x.pc = pc_t.idle) → th.pc ≠ pc_t.idle →
      m1 = l1 ∧ th = h ∧ m2 = l2 := by
  induction l1 with
  | nil =>
    intro m1 l2 m2 h th heq _ h2 hth
    cases m1 with
    | nil =>
      simp only [List.nil_append, List.cons.injEq] at heq
      exact ⟨rfl, heq.1.symm, heq.2.symm⟩
    | cons x m1 =>
      simp only [List.nil_append, List.cons_append, List.cons.injEq] at heq
      have : th ∈ l2 := by rw [heq.2]; simp
      exact absurd (h2 th this) hth
  | cons a l1 ih =>
    intro m1 l2 m2 h th heq h1 h2 hth
    cases m1 with
    | nil =>
      simp only [List.nil_append, List.cons_append, List.cons.injEq] at heq
      have := h1 a (List.mem_cons_self _ _)
      rw [heq.1] at this
      exact absurd this hth
    | cons x m1 =>
      simp only [List.cons_append, List.cons.injEq] at heq
      obtain ⟨e1, e2, e3⟩ := ih m1 l2 m2 h th heq.2
        (fun y hy => h1 y (List.mem_cons_of_mem _ hy)) h2 hth
      exact ⟨by rw [e1, heq.1], e2, e3⟩

theorem insert_word_take_drop (d : Dict) (w : List Nat) :
    ∀ i : Nat, (∀ e ∈ d.take i, 0 < strcmp w e.word) →
      insert_word d w = d.take i ++ insert_word (d.drop i) w := by
  induction d with
  | nil => intro i _; simp
  | cons di next ih =>
    intro i h
    cases i with
    | zero => simp
    | succ i =>
      have h1 : 0 < strcmp w di.word := h di (by simp)
      have h2 := ih i (fun e he => h e (by simp [he]))
      simp only [insert_word, List.take_succ_cons, List.drop_succ_cons, List.cons_append]
      rw [if_pos (by omega), if_neg (by omega), h2]

theorem take_succ_of_drop {α : Type} (d : List α) :
    ∀ (i : Nat) (a : α) (l : List α), d.drop i = a :: l → d.take (i + 1) = d.take i ++ [a] := by
  induction d with
  | nil => intro i a l h; simp at h
  | cons x d ih =>
    intro i a l h
    cases i with
    | zero =>
      simp only [List.drop_zero, List.cons.injEq] at h
      simp [h.1]
    | succ i =>
      simp only [List.drop_succ_cons] at h
      simp only [List.take_succ_cons, List.cons_append, ih i a l h]

theorem calls_flatten (l1 l2 : List thread_t) (th : thread_t) :
    ((l1 ++ th :: l2).map (fun x => x.calls)).flatten =
      (l1.map (fun x => x.calls)).flatten ++ (th.calls ++ (l2.map (fun x => x.calls)).flatten) := by
  simp

theorem sys_step_inv (d0 : Dict) (all : List (List Nat)) (s : sys_t) (t : Nat)
    (h : sys_inv d0 all s) : sys_inv d0 all (sys_step s t) := by
  unfold sys_step
  cases hth : s.threads[t]? with
  | none => exact h
  | some th =>
    simp only
    cases hst : thread_step s.sd th with
    | none => exact h
    | some r =>
      simp only
      obtain ⟨m1, m2, hm, hset⟩ := set_decomp s.threads t th hth
      obtain ⟨hist, hperm, hcase⟩ := h
      rw [hset r.2]
      rw [hm, calls_flatten] at hperm
      -- the thread has a call to make
      cases hc : th.calls with
      | nil => simp [thread_step, hc] at hst
      | cons w rest =>
        rw [hc] at hperm
        rcases hcase with ⟨hfree, hidle, hwd⟩ | ⟨hlk, l1, hd, l2, hl, hl1, hl2, hin⟩
        · -- the mutex is free: the thread takes it
          have hpc : th.pc = pc_t.idle := hidle th (by rw [hm]; simp)
          simp only [thread_step, hc, hpc, hfree, Bool.false_eq_true, if_false,
            Option.some.injEq] at hst
          subst hst
          refine ⟨hist, ?_, Or.inr ⟨rfl, m1, _, m2, rfl, ?_, ?_, ?_⟩⟩
          · rw [calls_flatten]; exact hperm
          · exact fun x hx => hidle x (by rw [hm]; simp [hx])
          · exact fun x hx => hidle x (by rw [hm]; simp [hx])
          · exact ⟨w, rest, rfl, hwd, by simp⟩
        · -- the mutex is taken
          by_cases hpc : th.pc = pc_t.idle
          · simp [thread_step, hc, hpc, hlk] at hst
          · obtain ⟨e1, e2, e3⟩ := unique_inside l1 m1 l2 m2 hd th (by rw [← hl, hm]) hl1 hl2 hpc
            subst e1 e2 e3
            cases hp : th.pc with
            | idle => exact absurd hp hpc
            | search i =>
              simp only [in_call, hp] at hin
              obtain ⟨w1, rest1, hc1, hcur, hlt⟩ := hin
              rw [hc] at hc1
              obtain ⟨rfl, rfl⟩ := List.cons.inj hc1
              simp only [thread_step, hc, hp] at hst
              have hsplit := insert_word_take_drop (insert_all d0 hist) w i hlt
              rw [hcur] at hst
              cases hdrop : (insert_all d0 hist).drop i with
              | nil =>
                simp only [hdrop, Option.some.injEq] at hst
                subst hst
                refine ⟨hist, by rw [calls_flatten]; exact hperm,
                  Or.inr ⟨hlk, m1, _, m2, rfl, hl1, hl2, ?_⟩⟩
                simp only [in_call]
                refine ⟨w, rest, rfl, ?_⟩
                rw [hsplit, hdrop]; rfl
              | cons di next =>
                simp only [hdrop] at hst
                rw [hdrop] at hsplit
                by_cases h1 : strcmp w di.word ≥ 0
                · by_cases h2 : strcmp w di.word = 0
                  · rw [if_pos h1, if_pos h2] at hst
                    simp only [Option.some.injEq] at hst
                    subst hst
                    refine ⟨hist, by rw [calls_flatten]; exact hperm,
                      Or.inr ⟨hlk, m1, _, m2, rfl, hl1, hl2, ?_⟩⟩
                    simp only [in_call]
                    refine ⟨w, rest, rfl, ?_⟩
                    rw [hsplit]
                    simp only [insert_word]
                    rw [if_pos h1, if_pos h2]
                  · rw [if_pos h1, if_neg h2] at hst
                    simp only [Option.some.injEq] at hst
                    subst hst
                    refine ⟨hist, by rw [calls_flatten]; exact hperm,
                      Or.inr ⟨hlk, m1, _, m2, rfl, hl1, hl2, ?_⟩⟩
                    simp only [in_call]
                    refine ⟨w, rest, rfl, hcur, ?_⟩
                    intro e he
                    rw [take_succ_of_drop _ i di next hdrop] at he
                    rcases List.mem_append.1 he with he | he
                    · exact hlt e he
                    · rw [List.mem_singleton.1 he]; omega
                · rw [if_neg h1] at hst
                  simp only [Option.some.injEq] at hst
                  subst hst
                  refine ⟨hist, by rw [calls_flatten]; exact hperm,
                    Or.inr ⟨hlk, m1, _, m2, rfl, hl1, hl2, ?_⟩⟩
                  simp only [in_call]
                  refine ⟨w, rest, rfl, ?_⟩
                  rw [hsplit]
                  simp only [insert_word]
                  rw [if_neg h1]
            | unlock =>
              simp only [in_call, hp] at hin
              obtain ⟨w1, rest1, hc1, hcur⟩ := hin
              rw [hc] at hc1
              obtain ⟨rfl, rfl⟩ := List.cons.inj hc1
              simp only [thread_step, hc, hp, Option.some.injEq] at hst
              subst hst
              refine ⟨hist ++ [w], ?_, Or.inl ⟨rfl, ?_, ?_⟩⟩
              · rw [calls_flatten]
                refine List.Perm.trans ?_ hperm
                rw [List.append_assoc]
                refine List.Perm.append_left hist ?_
                simp only [List.singleton_append, List.cons_append, List.nil_append]
                exact List.perm_middle.symm
              · intro x hx
                rcases List.mem_append.1 hx with hx | hx
                · exact hl1 x hx
                · rcases List.mem_cons.1 hx with hx | hx
                  · rw [hx]
                  · exact hl2 x hx
              · show s.sd.wd = insert_all d0 (hist ++ [w])
                rw [insert_all_append, hcur]

theorem sys_run_inv (d0 : Dict) (all : List (List Nat)) (sched : List Nat) :
    ∀ s : sys_t, sys_inv d0 all s → sys_inv d0 all (sys_run s sched) := by
  induction sched with
  | nil => intro s h; exact h
  | cons t sched ih => intro s h; exact ih _ (sys_step_inv d0 all s t h)

theorem sys_init_inv (d0 : Dict) (calls : List (List (List Nat))) :
    sys_inv d0 calls.flatten (sys_init d0 calls) := by
  refine ⟨[], ?_, Or.inl ⟨rfl, ?_, rfl⟩⟩
  · simp only [sys_init, List.map_map, List.nil_append]
    have : ((fun th : thread_t => th.calls) ∘ fun c => { pc := pc_t.idle, calls := c }) = id := rfl
    rw [this, List.map_id]
  · intro th hth
    simp only [sys_init, List.mem_map] at hth
    obtain ⟨c, _, rfl⟩ := hth
    rfl

/-- The linearization of the concurrent upserts: when every thread has returned, the shared
list is the result of the calls made one after the other in some order. -/
theorem sys_done_linear (d0 : Dict) (calls : List (List (List Nat))) (sched : List Nat)
    (hdone : sys_done (sys_run (sys_init d0 calls) sched)) :
    ∃ ws : List (List Nat), ws.Perm calls.flatten ∧
      (sys_run (sys_init d0 calls) sched).sd.wd = insert_all d0 ws ∧
      (sys_run (sys_init d0 calls) sched).sd.locked = false := by
  obtain ⟨hist, hperm, hcase⟩ := sys_run_inv d0 calls.flatten sched _ (sys_init_inv d0 calls)
  have hnil : ((sys_run (sys_init d0 calls) sched).threads.map (fun th => th.calls)).flatten
      = [] := by
    rw [List.flatten_eq_nil_iff]
    intro l hl
    obtain ⟨th, hth, rfl⟩ := List.mem_map.1 hl
    exact (hdone th hth).2
  rw [hnil, List.append_nil] at hperm
  rcases hcase with ⟨hfree, _, hwd⟩ | ⟨_, l1, th, l2, hl, _, _, hin⟩
  · exact ⟨hist, hperm, hwd, hfree⟩
  · have hpc := (hdone th (by rw [hl]; simp)).1
    simp only [in_call, hpc] at hin

theorem sys_inv_exclusion {d0 : Dict} {all : List (List Nat)} {s : sys_t}
    (h : sys_inv d0 all s) :
    (s.threads.filter (fun th => decide (th.pc ≠ pc_t.idle))).length ≤ 1 ∧
      (s.sd.locked = false → ∀ th ∈ s.threads, th.pc = pc_t.idle) := by
  obtain ⟨hist, _, hcase⟩ := h
  have hfil : ∀ l : List thread_t, (∀ x ∈ l, x.pc = pc_t.idle) →
      l.filter (fun th => decide (th.pc ≠ pc_t.idle)) = [] := by
    intro l hl
    rw [List.filter_eq_nil_iff]
    intro x hx
    simp [hl x hx]
  rcases hcase with ⟨_, hidle, _⟩ | ⟨hlk, l1, th, l2, hl, hl1, hl2, _⟩
  · exact ⟨by rw [hfil _ hidle]; simp, fun _ => hidle⟩
  · refine ⟨?_, fun h0 => by rw [hlk] at h0; exact absurd h0 (by decide)⟩
    rw [hl, List.filter_append, List.filter_cons, hfil l1 hl1, hfil l2 hl2]
    split_ifs <;> simp

theorem dict_lookup_insert_all_perm (ws all : List (List Nat)) (h : ws.Perm all)
    (w : List Nat) :
    dict_lookup (insert_all [] ws) w =
      if all.count w = 0 then none else some (int_wrap (all.count w : Int)) := by
  have hc : List.count w ws = List.count w all := h.countP_eq _
  rw [dict_lookup_insert_all, hc]

/-! ## Termination of the worker and of one upsert -/

theorem get_word_zero_rest (buf s : List Nat) (h : (get_word buf MAXWORD s).1 = 0) :
    (get_word buf MAXWORD s).2.2 = [] := by
  rcases no_letter_or_letter s with hno | hex
  · rw [get_word_none MAXWORD buf s (by decide) hno]
  · have := (get_word_ret_letter MAXWORD (by decide) buf s hex).1
    rw [h] at this
    exact absurd this (by decide)

theorem words_loop_rest (fuel : Nat) :
    ∀ (sd : Dict) (buf s : List Nat) (r : Dict × List Nat × List Nat),
      words_loop fuel sd buf s = some r → r.2.2 = [] := by
  induction fuel with
  | zero => intro sd buf s r h; simp [words_loop] at h
  | succ f ih =>
    intro sd buf s r h
    rw [words_loop] at h
    by_cases hr : (get_word buf MAXWORD s).1 ≠ 0
    · simp only [hr, ne_eq, not_false_eq_true, if_true] at h
      exact ih _ _ _ r h
    · simp only [hr, if_false, Option.some.injEq] at h
      rw [← h]
      exact get_word_zero_rest buf s (by simpa using hr)

theorem sys_run_replicate_done (d : Dict) (k : Nat) :
    sys_run (⟨⟨false, d⟩, [⟨pc_t.idle, []⟩]⟩ : sys_t)
        (List.replicate k 0) =
      (⟨⟨false, d⟩, [⟨pc_t.idle, []⟩]⟩ : sys_t) := by
  induction k with
  | zero => rfl
  | succ k ih =>
    rw [List.replicate_succ, sys_run, List.foldl_cons]
    exact ih

theorem sys_run_unlock (d : Dict) (w : List Nat) (k : Nat) :
    sys_run (⟨⟨true, d⟩, [⟨pc_t.unlock, [w]⟩]⟩ : sys_t)
        (List.replicate (k + 1) 0) =
      (⟨⟨false, d⟩, [⟨pc_t.idle, []⟩]⟩ : sys_t) := by
  rw [List.replicate_succ, sys_run, List.foldl_cons]
  exact sys_run_replicate_done d k

/-- A thread alone, at the test of the search loop with the nodes before `di` smaller than the
word: it returns after at most one step for each remaining node and two more. -/
theorem sys_run_search (d : Dict) (w : List Nat) (m : Nat) :
    ∀ i : Nat, d.length - i = m → (∀ e ∈ d.take i, 0 < strcmp w e.word) →
      sys_run (⟨⟨true, d⟩, [⟨pc_t.search i, [w]⟩]⟩ : sys_t)
          (List.replicate (m + 2) 0) =
        (⟨⟨false, insert_word d w⟩, [⟨pc_t.idle, []⟩]⟩ : sys_t) := by
  induction m with
  | zero =>
    intro i hi hlt
    have hsplit := insert_word_take_drop d w i hlt
    have hdrop : d.drop i = [] := List.drop_eq_nil_of_le (by omega)
    rw [hdrop] at hsplit
    rw [List.replicate_succ, sys_run, List.foldl_cons]
    have hstep : sys_step (⟨⟨true, d⟩, [⟨pc_t.search i, [w]⟩]⟩ : sys_t) 0 =
        (⟨⟨true, insert_word d w⟩, [⟨pc_t.unlock, [w]⟩]⟩ : sys_t) := by
      simp only [sys_step, List.getElem?_cons_zero, thread_step, hdrop, List.set_cons_zero]
      rw [hsplit]; rfl
    rw [hstep]
    exact sys_run_unlock _ w 0
  | succ m ih =>
    intro i hi hlt
    have hsplit := insert_word_take_drop d w i hlt
    have hne : d.drop i ≠ [] := by
      intro h0
      rw [List.drop_eq_nil_iff] at h0
      omega
    obtain ⟨di, next, hdrop⟩ := List.exists_cons_of_ne_nil hne
    rw [hdrop] at hsplit
    rw [List.replicate_succ, sys_run, List.foldl_cons]
    by_cases h1 : strcmp w di.word ≥ 0
    · by_cases h2 : strcmp w di.word = 0
      · have hstep : sys_step (⟨⟨true, d⟩, [⟨pc_t.search i, [w]⟩]⟩ : sys_t) 0 =
            (⟨⟨true, insert_word d w⟩, [⟨pc_t.unlock, [w]⟩]⟩ : sys_t) := by
          simp only [sys_step, List.getElem?_cons_zero, thread_step, hdrop, List.set_cons_zero]
          rw [if_pos h1, if_pos h2, hsplit]
          simp only [insert_word]
          rw [if_pos h1, if_pos h2]
        rw [hstep]
        exact sys_run_unlock _ w (m + 1)
      · have hstep : sys_step (⟨⟨true, d⟩, [⟨pc_t.search i, [w]⟩]⟩ : sys_t) 0 =
            (⟨⟨true, d⟩, [⟨pc_t.search (i + 1), [w]⟩]⟩ : sys_t) := by
          simp only [sys_step, List.getElem?_cons_zero, thread_step, hdrop, List.set_cons_zero]
          rw [if_pos h1, if_neg h2]
        rw [hstep]
        refine ih (i + 1) (by omega) ?_
        intro e he
        rw [take_succ_of_drop d i di next hdrop] at he
        rcases List.mem_append.1 he with he | he
        · exact hlt e he
        · rw [List.mem_singleton.1 he]; omega
    · have hstep : sys_step (⟨⟨true, d⟩, [⟨pc_t.search i, [w]⟩]⟩ : sys_t) 0 =
          (⟨⟨true, insert_word d w⟩, [⟨pc_t.unlock, [w]⟩]⟩ : sys_t) := by
        simp only [sys_step, List.getElem?_cons_zero, thread_step, hdrop, List.set_cons_zero]
        rw [if_neg h1, hsplit]
        simp only [insert_word]
        rw [if_neg h1]
      rw [hstep]
      exact sys_run_unlock _ w (m + 1)

/-- One call of `insert_word` by a thread alone returns after at most one step for each node
of the list and three more, with the list that the function `insert_word` gives. -/
theorem sys_run_single (d : Dict) (w : List Nat) :
    sys_run (sys_init d [[w]]) (List.replicate (d.length + 3) 0) =
      (⟨⟨false, insert_word d w⟩, [⟨pc_t.idle, []⟩]⟩ : sys_t) := by
  rw [List.replicate_succ, sys_run, List.foldl_cons]
  have hstep : sys_step (sys_init d [[w]]) 0 =
      (⟨⟨true, d⟩, [⟨pc_t.search 0, [w]⟩]⟩ : sys_t) := rfl
  rw [hstep]
  exact sys_run_search d w d.length 0 rfl (by simp)

/-! ## Failing allocations -/

theorem make_dict_res_fail (w : List Nat) (mem : List Bool)
    (hfail : mem.head? = some false ∨ (mem.drop 1).head? = some false) :
    make_dict_res w mem = (outcome_t.killed, mem.drop 2) := by
  cases mem with
  | nil => simp at hfail
  | cons a m =>
    cases m with
    | nil =>
      cases a
      · rfl
      · simp at hfail
    | cons b m2 =>
      cases a <;> cases b <;> first | rfl | simp at hfail

theorem make_dict_res_ok (w : List Nat) (mem : List Bool)
    (hok : mem.head? ≠ some false ∧ (mem.drop 1).head? ≠ some false) :
    make_dict_res w mem = (outcome_t.returns (make_dict w), mem.drop 2) := by
  cases mem with
  | nil => rfl
  | cons a m =>
    cases m with
    | nil =>
      cases a
      · simp at hok
      · rfl
    | cons b m2 =>
      cases a <;> cases b <;> first | rfl | simp at hok

/-- On an absent word `insert_word` reaches `make_dict`, and the list is touched only when
`make_dict` has returned. -/
theorem insert_word_res_absent (d : Dict) (w : List Nat) (mem : List Bool)
    (ha : ∀ e ∈ d, e.word ≠ w) :
    insert_word_res d w mem =
      match make_dict_res w mem with
      | (outcome_t.returns nd, mem2) =>
        (outcome_t.returns (), d.takeWhile (fun e => !decide (strcmp w e.word < 0)) ++
          nd :: d.dropWhile (fun e => !decide (strcmp w e.word < 0)), mem2)
      | (outcome_t.killed, mem2) => (outcome_t.killed, d, mem2) := by
  induction d with
  | nil =>
    simp only [insert_word_res, List.takeWhile_nil, List.dropWhile_nil, List.nil_append]
  | cons di next ih =>
    have hne : ¬ strcmp w di.word = 0 := fun h =>
      ha di (List.mem_cons_self _ _) ((strcmp_eq_zero_iff _ _).1 h).symm
    have ih1 := ih (fun e he => ha e (List.mem_cons_of_mem _ he))
    simp only [insert_word_res]
    by_cases h1 : strcmp w di.word ≥ 0
    · have h2 : ¬ strcmp w di.word < 0 := by omega
      rw [if_pos h1, if_neg hne, ih1]
      rcases hm : make_dict_res w mem with ⟨o, m2⟩
      cases o <;> simp [List.takeWhile_cons, List.dropWhile_cons, h2]
    · have h2 : strcmp w di.word < 0 := by omega
      rw [if_neg h1]
      rcases hm : make_dict_res w mem with ⟨o, m2⟩
      cases o <;> simp [List.takeWhile_cons, List.dropWhile_cons, h2]

/-! ## The claims -/

/-- C1. Upsert of an absent word: on a dictionary whose words are strictly increasing, with no
entry for `w`, `insert_word` returns the entries of `d` up to the first one whose text is
greater than `w`, then the new entry `(w, 1)`, then the remaining entries of `d` (so the new
entry is the head when `d` has no smaller entry and the tail when it has no greater one);
all entries before it are smaller than `w`, all entries after it are greater, and the entries
of `d` are kept, unchanged and in their order. -/
theorem insert_word_absent (d : Dict) (w : List Nat) (hs : dict_sorted d)
    (ha : ∀ e ∈ d, e.word ≠ w) :
    insert_word d w =
        d.takeWhile (fun e => !decide (strcmp w e.word < 0)) ++
          { word := w, count := 1 } :: d.dropWhile (fun e => !decide (strcmp w e.word < 0)) ∧
      (∀ e ∈ d.takeWhile (fun e => !decide (strcmp w e.word < 0)), strcmp e.word w < 0) ∧
      (∀ e ∈ d.dropWhile (fun e => !decide (strcmp w e.word < 0)), strcmp w e.word < 0) ∧
      (insert_word d w).filter (fun e => decide (e.word ≠ w)) = d := by
  have h1 := insert_word_splice d w ha
  have h2 := sorted_before_after w hs ha
  refine ⟨h1, h2.1, h2.2, ?_⟩
  rw [h1, List.filter_append, List.filter_cons]
  simp only [ne_eq, not_true_eq_false, decide_False, Bool.false_eq_true, if_false]
  rw [← List.filter_append, List.takeWhile_append_dropWhile]
  exact List.filter_eq_self.2 (fun e he => by simpa using ha e he)

theorem insert_word_absent_witness :
    dict_sorted [⟨[97], 3⟩, ⟨[99], 5⟩] ∧ (∀ e ∈ [(⟨[97], 3⟩ : dict_t), ⟨[99], 5⟩], e.word ≠ [98]) ∧
      insert_word [⟨[97], 3⟩, ⟨[99], 5⟩] [98] = [⟨[97], 3⟩, ⟨[98], 1⟩, ⟨[99], 5⟩] := by
  refine ⟨by decide, by decide, ?_⟩
  have h := (insert_word_absent [⟨[97], 3⟩, ⟨[99], 5⟩] [98] (by decide) (by decide)).1
  rw [h]; decide

/-- C2 (amended). Upsert of a present word: on a dictionary whose words are strictly increasing
and which holds an entry `e` for `w` whose count is an `int` below `INT_MAX`, `insert_word`
returns `d` with the count of that entry increased by exactly 1 and nothing else changed: the
entry for `w` is unique, and the number of entries, their order, every text and every other
count are those of `d`. -/
theorem insert_word_present (d : Dict) (w : List Nat) (e : dict_t) (hs : dict_sorted d)
    (he : e ∈ d) (hw : e.word = w) (hlo : -2147483648 ≤ e.count) (hhi : e.count < INT_MAX) :
    insert_word d w = d.map (fun x => if x = e then { x with count := x.count + 1 } else x) ∧
      (∀ x ∈ d, x.word = w → x = e) ∧
      (insert_word d w).length = d.length ∧
      (insert_word d w).map (fun x => x.word) = d.map (fun x => x.word) ∧
      dict_lookup (insert_word d w) w = some (e.count + 1) ∧
      ∀ v, v ≠ w → dict_lookup (insert_word d w) v = dict_lookup d v := by
  have huniq : ∀ x ∈ d, x.word = w → x = e := fun x hx hxw =>
    dict_sorted_unique hs hx he (hxw.trans hw.symm)
  have hmap : insert_word d w =
      d.map (fun x => if x = e then { x with count := x.count + 1 } else x) := by
    rw [insert_word_bump d w hs ⟨e, he, hw⟩]
    apply List.map_congr_left
    intro x hx
    by_cases hx1 : x = e
    · subst hx1
      rw [if_pos hw, if_pos rfl, int_wrap_of_range (by omega) (by unfold INT_MAX at hhi; omega)]
    · have : ¬ x.word = w := fun h => hx1 (huniq x hx h)
      rw [if_neg this, if_neg hx1]
  have hlook : dict_lookup d w = some e.count := hw ▸ dict_lookup_of_mem hs he
  refine ⟨hmap, huniq, ?_, ?_, ?_, ?_⟩
  · rw [hmap, List.length_map]
  · rw [hmap, List.map_map]
    apply List.map_congr_left
    intro x _
    simp only [Function.comp]
    split_ifs <;> rfl
  · rw [dict_lookup_insert_word w w hs, if_pos rfl, hlook]
    simp only [bump_count]
    rw [int_wrap_of_range (by omega) (by unfold INT_MAX at hhi; omega)]
  · intro v hv
    rw [dict_lookup_insert_word w v hs, if_neg hv]

theorem insert_word_present_witness :
    dict_sorted [⟨[97], 3⟩, ⟨[99], 5⟩] ∧ (⟨[99], 5⟩ : dict_t) ∈ [(⟨[97], 3⟩ : dict_t), ⟨[99], 5⟩] ∧
      insert_word [⟨[97], 3⟩, ⟨[99], 5⟩] [99] = [⟨[97], 3⟩, ⟨[99], 6⟩] := by
  refine ⟨by decide, by decide, ?_⟩
  have h := (insert_word_present [⟨[97], 3⟩, ⟨[99], 5⟩] [99] ⟨[99], 5⟩ (by decide) (by decide) rfl
    (by decide) (by decide)).1
  rw [h]; decide

/-- C2, counterexample. The dictionary with the single entry `("a", INT_MAX)` is sorted and holds
`"a"`; `insert_word` on `"a"` leaves the count `-2147483648`, not `INT_MAX + 1`. -/
theorem insert_word_present_overflow :
    dict_sorted [⟨[97], 2147483647⟩] ∧
      insert_word [⟨[97], 2147483647⟩] [97] = [⟨[97], -2147483648⟩] ∧
      dict_lookup (insert_word [⟨[97], 2147483647⟩] [97]) [97] ≠ some (2147483647 + 1) := by
  decide

/-- C3. Sorted and unique invariant: `insert_word` keeps the words of a dictionary strictly
increasing in the order of `strcmp`; so the dictionary reached from the empty one by any finite
sequence of `insert_word` calls has strictly increasing words, and the words that `print_dict`
reports from it are strictly increasing, with no repeats. -/
theorem sorted_unique_invariant :
    (∀ (d : Dict) (w : List Nat), dict_sorted d → dict_sorted (insert_word d w)) ∧
      ∀ ws : List (List Nat),
        dict_sorted (insert_all [] ws) ∧
        ((print_dict (insert_all [] ws)).map (fun l => l.2)).Pairwise
          (fun a b => strcmp a b < 0) ∧
        ((print_dict (insert_all [] ws)).map (fun l => l.2)).Nodup := by
  refine ⟨fun d w h => insert_word_sorted w h, fun ws => ?_⟩
  have hs := insert_all_sorted ws dict_sorted_nil
  refine ⟨hs, ?_, ?_⟩
  · rw [print_dict_words, List.pairwise_map]; exact hs
  · rw [print_dict_words]; exact dict_sorted_words_nodup hs

theorem sorted_unique_invariant_witness :
    dict_sorted [⟨[97], 3⟩, ⟨[99], 5⟩] ∧ dict_sorted (insert_word [⟨[97], 3⟩, ⟨[99], 5⟩] [98]) :=
  ⟨by decide, sorted_unique_invariant.1 [⟨[97], 3⟩, ⟨[99], 5⟩] [98] (by decide)⟩

/-- C4 (amended). Conservation of occurrences: for every input stream whose maximal alphabetic
runs have at most 1025 characters, and in which no word occurs more than `INT_MAX` =
2147483647 times, the worker loop (cap 1024, local buffer of 1025 bytes) started from the
empty dictionary ends, and the count it leaves for each word `W` is the number of maximal
alphabetic runs of the input whose text, cut to its first 1024 characters, is exactly `W`;
a word with no such run has no entry. -/
theorem words_conservation (buf s : List Nat) (hb : buf.length = 1025)
    (hruns : ∀ r ∈ alpha_runs s, r.length ≤ 1025)
    (hcount : ∀ W, ((alpha_runs s).map (List.take 1024)).count W ≤ 2147483647) :
    ∃ d, words_dict [] buf s = some d ∧
      ∀ W, dict_lookup d W =
        if ((alpha_runs s).map (List.take 1024)).count W = 0 then none
        else some (((alpha_runs s).map (List.take 1024)).count W : Int) := by
  refine ⟨_, words_dict_runs [] buf s (by rw [hb]; decide) hruns, ?_⟩
  intro W
  rw [dict_lookup_insert_all]
  have hc := hcount W
  have hM : MAXWORD = 1024 := rfl
  rw [hM]
  split_ifs with h0
  · rfl
  · rw [int_wrap_of_range (by omega) (by omega)]

theorem words_conservation_witness :
    (List.replicate 1025 0).length = 1025 ∧
      ∃ d, words_dict [] (List.replicate 1025 0) [97, 32, 98, 46, 97] = some d ∧
        ∀ W, dict_lookup d W =
          if ((alpha_runs [97, 32, 98, 46, 97]).map (List.take 1024)).count W = 0 then none
          else some (((alpha_runs [97, 32, 98, 46, 97]).map (List.take 1024)).count W : Int) := by
  have hr : alpha_runs [97, 32, 98, 46, 97] = [[97], [98], [97]] := by decide
  refine ⟨List.length_replicate _ _,
    words_conservation (List.replicate 1025 0) [97, 32, 98, 46, 97] (List.length_replicate _ _)
      ?_ ?_⟩
  · rw [hr]; decide
  · intro W
    exact le_trans (List.count_le_length W _) (by rw [hr]; decide)

/-- C4, counterexample. On the input of 1026 letters `a` the worker leaves an entry for the
word `"a"`, although the only maximal run, cut to 1024 characters, is not `"a"`; and on the
input that repeats `"a "` 2147483648 times it leaves the count `-2147483648` for `"a"`, which
is the text of 2147483648 runs. -/
theorem words_conservation_fails :
    (∃ d, words_dict [] (List.replicate 1025 0) (List.replicate 1026 97) = some d ∧
        dict_lookup d [97] = some 1 ∧
        ((alpha_runs (List.replicate 1026 97)).map (List.take 1024)).count [97] = 0) ∧
      ∃ d, words_dict [] (List.replicate 1025 0)
          (List.replicate 2147483648 [97, 32]).flatten = some d ∧
        dict_lookup d [97] = some (-2147483648) ∧
        ((alpha_runs (List.replicate 2147483648 [97, 32]).flatten).map (List.take 1024)).count
          [97] = 2147483648 := by
  constructor
  · have h := words_dict_long_run [] (List.replicate 1025 0) [] (List.replicate 1026 97) []
      (by rw [List.length_replicate]; decide) (by simp)
      (fun c hc => by rw [List.eq_of_mem_replicate hc]; decide) (by simp)
      (by rw [List.length_replicate]; decide) (by rw [List.length_replicate]; decide)
    rw [List.nil_append, List.append_nil, List.take_replicate, List.drop_replicate] at h
    have h1 : min MAXWORD 1026 = 1024 := by decide
    have h2 : 1026 - (MAXWORD + 1) = 1 := by decide
    rw [h1, h2] at h
    have h3 : insert_word (insert_word [] (List.replicate 1024 97)) (List.replicate 1 97) =
        [⟨[97], 1⟩, ⟨List.replicate 1024 97, 1⟩] := by
      have hlt := strcmp_replicate_lt 97 1 1024 (by decide)
      simp only [insert_word, make_dict, make_word, hlt]
      rfl
    rw [h3] at h
    refine ⟨_, h, by simp [dict_lookup], ?_⟩
    have hr : alpha_runs (List.replicate 1026 97) = [List.replicate 1026 97] := by
      have := alpha_runs_split [] (List.replicate 1026 97) [] (by simp)
        (fun c hc => by rw [List.eq_of_mem_replicate hc]; decide)
        (by intro h0; have := congrArg List.length h0; rw [List.length_replicate] at this
            exact absurd this (by decide))
        (Or.inl rfl)
      rw [List.nil_append, List.append_nil] at this
      rw [this]; rfl
    rw [hr, List.map_cons, List.map_nil, List.take_replicate, List.count_eq_zero]
    intro hm
    have := congrArg List.length (List.mem_singleton.1 hm)
    rw [List.length_replicate] at this
    exact absurd this (by decide)
  · have hr := alpha_runs_repeat 2147483648
    have hruns : ∀ r ∈ alpha_runs (List.replicate 2147483648 [97, 32]).flatten,
        r.length ≤ MAXWORD + 1 := by
      intro r hrm
      rw [hr] at hrm
      rw [List.eq_of_mem_replicate hrm]; decide
    have h := words_dict_runs [] (List.replicate 1025 0)
      (List.replicate 2147483648 [97, 32]).flatten (by rw [List.length_replicate]; decide) hruns
    have hm : (alpha_runs (List.replicate 2147483648 [97, 32]).flatten).map (List.take 1024) =
        List.replicate 2147483648 [97] := by
      rw [hr, List.map_replicate]; rfl
    have hM : MAXWORD = 1024 := rfl
    rw [hM, hm] at h
    refine ⟨_, h, ?_, ?_⟩
    · rw [dict_lookup_insert_all, List.count_replicate_self, if_neg (by decide)]
      decide
    · rw [hm, List.count_replicate_self]

/-- C5, the code on the failing input. For an input that holds a single alphabetic run of
length 2000 and otherwise only non-alphabetic characters, the worker loop with cap 1024 (local
buffer of 1025 bytes) ends with the result of two upserts: of the first 1024 characters of the
run, and of its characters 1026 to 2000, the character 1025 being read and lost. The
dictionary has these two entries, each with count 1, not the single entry of the first 1024
characters. -/
theorem words_truncation (buf sep1 run sep2 : List Nat) (hb : buf.length = 1025)
    (hsep1 : ∀ c ∈ sep1, isalpha c = false) (hrun : ∀ c ∈ run, isalpha c = true)
    (hsep2 : ∀ c ∈ sep2, isalpha c = false) (hlen : run.length = 2000) :
    words_dict [] buf (sep1 ++ run ++ sep2) =
        some (insert_word (insert_word [] (run.take 1024)) (run.drop 1025)) ∧
      (insert_word (insert_word [] (run.take 1024)) (run.drop 1025) =
          [⟨run.take 1024, 1⟩, ⟨run.drop 1025, 1⟩] ∨
        insert_word (insert_word [] (run.take 1024)) (run.drop 1025) =
          [⟨run.drop 1025, 1⟩, ⟨run.take 1024, 1⟩]) ∧
      (run.take 1024).length = 1024 ∧ (run.drop 1025).length = 975 ∧
      words_dict [] buf (sep1 ++ run ++ sep2) ≠ some [⟨run.take 1024, 1⟩] := by
  have h : words_dict [] buf (sep1 ++ run ++ sep2) =
      some (insert_word (insert_word [] (run.take 1024)) (run.drop 1025)) :=
    words_dict_long_run [] buf sep1 run sep2 (by rw [hb]; decide) hsep1 hrun hsep2
      (by rw [hlen]; decide) (by rw [hlen]; decide)
  have hl2 : (run.drop 1025).length = 975 := by
    rw [List.length_drop, hlen]
  have hl1 : (run.take 1024).length = 1024 := by
    rw [List.length_take, hlen]; rfl
  have hne : run.drop 1025 ≠ run.take 1024 := by
    intro h0
    have := congrArg List.length h0
    rw [hl1, hl2] at this
    omega
  have h2 : insert_word (insert_word [] (run.take 1024)) (run.drop 1025) =
        [⟨run.take 1024, 1⟩, ⟨run.drop 1025, 1⟩] ∨
      insert_word (insert_word [] (run.take 1024)) (run.drop 1025) =
        [⟨run.drop 1025, 1⟩, ⟨run.take 1024, 1⟩] :=
    insert_word_single ⟨run.take 1024, 1⟩ _ hne
  refine ⟨h, h2, hl1, hl2, ?_⟩
  rw [h]
  intro h0
  have h3 := congrArg List.length (Option.some.inj h0)
  rcases h2 with h2 | h2 <;> rw [h2] at h3 <;> simp at h3

theorem words_truncation_witness :
    (List.replicate 1025 0).length = 1025 ∧ (List.replicate 2000 97).length = 2000 ∧
      words_dict [] (List.replicate 1025 0) ([] ++ List.replicate 2000 97 ++ []) =
        some [⟨List.replicate 975 97, 1⟩, ⟨List.replicate 1024 97, 1⟩] ∧
      words_dict [] (List.replicate 1025 0) ([] ++ List.replicate 2000 97 ++ []) ≠
        some [⟨(List.replicate 2000 97).take 1024, 1⟩] := by
  have h := words_truncation (List.replicate 1025 0) [] (List.replicate 2000 97) []
    (List.length_replicate _ _) (by simp)
    (fun c hc => by rw [List.eq_of_mem_replicate hc]; decide) (by simp)
    (List.length_replicate _ _)
  have h1 := h.1
  rw [List.take_replicate, List.drop_replicate] at h1
  have e1 : min 1024 2000 = 1024 := by decide
  have e2 : 2000 - 1025 = 975 := by decide
  rw [e1, e2] at h1
  have h3 : insert_word (insert_word [] (List.replicate 1024 97)) (List.replicate 975 97) =
      [⟨List.replicate 975 97, 1⟩, ⟨List.replicate 1024 97, 1⟩] := by
    have hlt := strcmp_replicate_lt 97 975 1024 (by decide)
    simp only [insert_word, make_dict, make_word, hlt]
    rfl
  rw [h3] at h1
  exact ⟨List.length_replicate _ _, List.length_replicate _ _, h1, h.2.2.2.2⟩

/-- C6. Tokenizer returns the next maximal run: on a stream `sep ++ run ++ rest`, where `sep`
has no letter, `run` is a non-empty sequence of letters of length at most 1024 and `rest` is
empty or starts with a non-alphabetic character, `get_word( buf, 1024, stream )` (on a buffer
of more than 1024 bytes) returns 1 and leaves in `buf` exactly the bytes of `run`, unchanged,
followed by the terminator, so that the string held by `buf` is `run`. -/
theorem get_word_maximal_run (buf sep run rest : List Nat) (hb : 1024 < buf.length)
    (hsep : ∀ c ∈ sep, isalpha c = false) (hrun : ∀ c ∈ run, isalpha c = true)
    (hne : run ≠ []) (hlen : run.length ≤ 1024)
    (hrest : rest = [] ∨ ∃ c r, rest = c :: r ∧ isalpha c = false) :
    (get_word buf 1024 (sep ++ run ++ rest)).1 = 1 ∧
      (get_word buf 1024 (sep ++ run ++ rest)).2.1.take (run.length + 1) = run ++ [0] ∧
      c_str (get_word buf 1024 (sep ++ run ++ rest)).2.1 = run := by
  have h := get_word_run 1024 buf sep run rest (by decide) hb hsep hrun hne hlen (Or.inr hrest)
  simp only [Nat.cast_ofNat] at h
  rw [h]
  refine ⟨rfl, ?_, c_str_append_zero run _ hrun⟩
  show List.take (run.length + 1) (run ++ 0 :: List.drop (run.length + 1) buf) = run ++ [0]
  rw [List.take_append_eq_append_take]
  simp

theorem get_word_maximal_run_witness :
    (1024 : Nat) < (List.replicate 1025 7).length ∧
      (get_word (List.replicate 1025 7) 1024 ([32, 46] ++ [84, 104, 101] ++ [32, 99])).1 = 1 ∧
      c_str (get_word (List.replicate 1025 7) 1024 ([32, 46] ++ [84, 104, 101] ++ [32, 99])).2.1 =
        [84, 104, 101] := by
  have h := get_word_maximal_run (List.replicate 1025 7) [32, 46] [84, 104, 101] [32, 99]
    (by rw [List.length_replicate]; omega) (by decide) (by decide) (by decide) (by decide)
    (Or.inr ⟨32, [99], rfl, by decide⟩)
  exact ⟨by rw [List.length_replicate]; omega, h.1, h.2.2⟩

/-- C7. End-of-stream exactly when no letters remain: for every stream and every cap `n ≥ 1`
(1024 in the worker), `get_word` returns 0 if and only if the stream holds no alphabetic
character, and returns 1 otherwise; whenever it returns 1 (the buffer having room for `n + 1`
bytes) the word it leaves in the buffer is non-empty. So a stream of non-alphabetic characters
alone yields end-of-stream, never an empty word. -/
theorem get_word_end_of_stream (buf s : List Nat) (n : Int) (hn : 1 ≤ n) :
    ((get_word buf n s).1 = 0 ↔ ∀ c ∈ s, isalpha c = false) ∧
      ((get_word buf n s).1 = 0 ∨ (get_word buf n s).1 = 1) ∧
      (n < buf.length → (get_word buf n s).1 = 1 → c_str (get_word buf n s).2.1 ≠ []) := by
  obtain ⟨m, rfl⟩ : ∃ m : Nat, n = (m : Int) :=
    ⟨n.toNat, (Int.toNat_of_nonneg (by omega)).symm⟩
  have hm : 1 ≤ m := by exact_mod_cast hn
  rcases no_letter_or_letter s with hno | hex
  · have h0 := get_word_none m buf s hm hno
    refine ⟨⟨fun _ => hno, fun _ => by rw [h0]⟩, Or.inl (by rw [h0]), ?_⟩
    intro _ h1
    rw [h0] at h1
    have h2 : (0 : Int) = 1 := h1
    exact absurd h2 (by decide)
  · have h1 := get_word_ret_letter m hm buf s hex
    refine ⟨⟨fun h0 => ?_, fun hno => ?_⟩, Or.inr h1.1, ?_⟩
    · rw [h1.1] at h0; exact absurd h0 (by decide)
    · obtain ⟨c, hc, hca⟩ := hex
      rw [hno c hc] at hca
      exact absurd hca (by decide)
    · intro hb _
      exact h1.2 (by exact_mod_cast hb)

theorem get_word_end_of_stream_witness :
    (1 : Int) ≤ 1024 ∧
      ((get_word (List.replicate 1025 7) 1024 [32, 46, 10]).1 = 0 ↔
        ∀ c ∈ [32, 46, 10], isalpha c = false) ∧
      (get_word (List.replicate 1025 7) 1024 [32, 46, 10]).1 = 0 :=
  have h := get_word_end_of_stream (List.replicate 1025 7) [32, 46, 10] 1024 (by decide)
  ⟨by decide, h.1, h.1.2 (by decide)⟩

/-- C8. Silent truncation at the cap: on a stream `sep ++ run ++ rest`, where `sep` has no
letter and `run` is a sequence of more than 1024 letters, `get_word( buf, 1024, stream )` (on a
buffer of more than 1024 bytes) returns 1, the value it returns for any word, and leaves in
`buf` exactly the first 1024 letters of `run` followed by the terminator. -/
theorem get_word_truncates (buf sep run rest : List Nat) (hb : 1024 < buf.length)
    (hsep : ∀ c ∈ sep, isalpha c = false) (hrun : ∀ c ∈ run, isalpha c = true)
    (hlen : 1024 < run.length) :
    (get_word buf 1024 (sep ++ run ++ rest)).1 = 1 ∧
      (get_word buf 1024 (sep ++ run ++ rest)).2.1.take 1025 = run.take 1024 ++ [0] ∧
      c_str (get_word buf 1024 (sep ++ run ++ rest)).2.1 = run.take 1024 := by
  have htl : (run.take 1024).length = 1024 := by
    rw [List.length_take]; omega
  have hw : ∀ c ∈ run.take 1024, isalpha c = true := fun c hc => hrun c (List.mem_of_mem_take hc)
  have hs : sep ++ run ++ rest = sep ++ run.take 1024 ++ (run.drop 1024 ++ rest) :=
    append_split 1024 sep run rest
  have h := get_word_run 1024 buf sep (run.take 1024) (run.drop 1024 ++ rest) (by decide) hb hsep
    hw (by intro h0; rw [h0] at htl; simp at htl) (by omega) (Or.inl htl)
  simp only [Nat.cast_ofNat] at h
  rw [hs, h]
  refine ⟨rfl, ?_, c_str_append_zero _ _ hw⟩
  show List.take 1025 (run.take 1024 ++ 0 :: List.drop ((run.take 1024).length + 1) buf) =
    run.take 1024 ++ [0]
  rw [List.take_append_eq_append_take, htl]
  simp

theorem get_word_truncates_witness :
    (1024 : Nat) < (List.replicate 1025 7).length ∧
      (1024 : Nat) < (List.replicate 1030 97).length ∧
      (get_word (List.replicate 1025 7) 1024 ([32] ++ List.replicate 1030 97 ++ [46])).1 = 1 ∧
      c_str (get_word (List.replicate 1025 7) 1024 ([32] ++ List.replicate 1030 97 ++ [46])).2.1 =
        (List.replicate 1030 97).take 1024 := by
  have h := get_word_truncates (List.replicate 1025 7) [32] (List.replicate 1030 97) [46]
    (by rw [List.length_replicate]; omega) (by decide)
    (fun c hc => by rw [List.eq_of_mem_replicate hc]; decide)
    (by rw [List.length_replicate]; omega)
  exact ⟨by rw [List.length_replicate]; omega, by rw [List.length_replicate]; omega, h.1, h.2.2⟩

/-- C9 (amended). Dictionary equals the sorted word count of what was upserted: for every
finite list `ws` of words in which no word occurs more than `INT_MAX` = 2147483647 times,
applying `insert_word` for each element of `ws` in order to the empty dictionary yields exactly
the pairs (word, number of occurrences in `ws`) for the distinct words of `ws`, in strictly
increasing order. -/
theorem insert_all_word_count (ws : List (List Nat)) (h : ∀ w, ws.count w ≤ 2147483647) :
    insert_all [] ws = word_count ws ∧
      dict_sorted (word_count ws) ∧
      ∀ w, dict_lookup (word_count ws) w = if w ∈ ws then some (ws.count w : Int) else none := by
  refine ⟨by rw [insert_all_eq_word_count_int, word_count_of_le ws h], ?_, ?_⟩
  · exact dict_sorted_map _ _ (sorted_distinct_pairwise ws)
  · intro w
    unfold word_count
    rw [dict_lookup_map]
    by_cases hw : w ∈ ws
    · rw [if_pos hw, if_pos ((sorted_distinct_mem ws w).2 hw)]
    · rw [if_neg hw, if_neg (fun h1 => hw ((sorted_distinct_mem ws w).1 h1))]

theorem insert_all_word_count_witness :
    (∀ w, List.count w [[98], [97], [98], [97, 97]] ≤ 2147483647) ∧
      insert_all [] [[98], [97], [98], [97, 97]] = [⟨[97], 1⟩, ⟨[97, 97], 1⟩, ⟨[98], 2⟩] := by
  have hc : ∀ w, List.count w [[98], [97], [98], [97, 97]] ≤ 2147483647 := fun w =>
    le_trans (List.count_le_length w _) (by decide)
  refine ⟨hc, ?_⟩
  rw [(insert_all_word_count [[98], [97], [98], [97, 97]] hc).1]
  decide

/-- C9, counterexample. After 2147483648 upserts of the word `"a"` the dictionary holds the
count `-2147483648`, while the word occurs 2147483648 times in the list. -/
theorem insert_all_overflow :
    dict_lookup (insert_all [] (List.replicate 2147483648 [97])) [97] = some (-2147483648) ∧
      dict_lookup (word_count (List.replicate 2147483648 [97])) [97] = some 2147483648 ∧
      insert_all [] (List.replicate 2147483648 [97]) ≠
        word_count (List.replicate 2147483648 [97]) := by
  have hm : [97] ∈ List.replicate 2147483648 [97] :=
    List.mem_replicate.2 ⟨by decide, rfl⟩
  have h1 : dict_lookup (insert_all [] (List.replicate 2147483648 [97])) [97] =
      some (-2147483648) := by
    rw [dict_lookup_insert_all, List.count_replicate_self, if_neg (by decide)]
    decide
  have h2 : dict_lookup (word_count (List.replicate 2147483648 [97])) [97] =
      some 2147483648 := by
    unfold word_count
    rw [dict_lookup_map, if_pos ((sorted_distinct_mem _ _).2 hm), List.count_replicate_self]
    rfl
  refine ⟨h1, h2, fun h => ?_⟩
  rw [h, h2] at h1
  exact absurd h1 (by decide)

/-- C10. Concurrency-invariance of the result: for every finite list `ws` of words and every
permutation `ws1` of it, applying `insert_word` over `ws` and over `ws1` to the empty dictionary
yields the same dictionary: same entries, same counts, same order. -/
theorem insert_all_perm (ws ws1 : List (List Nat)) (h : ws.Perm ws1) :
    insert_all [] ws = insert_all [] ws1 := by
  apply dict_sorted_ext (insert_all_sorted ws dict_sorted_nil)
    (insert_all_sorted ws1 dict_sorted_nil)
  intro w
  rw [dict_lookup_insert_all, dict_lookup_insert_all]
  have hc : List.count w ws = List.count w ws1 := h.countP_eq _
  rw [hc]

theorem insert_all_perm_witness :
    List.Perm [[98], [97], [98]] [[98], [98], [97]] ∧
      insert_all [] [[98], [97], [98]] = insert_all [] [[98], [98], [97]] :=
  ⟨by decide, insert_all_perm _ _ (by decide)⟩

/-- C11. End-to-end example: on the input `"the cat sat on the mat. The cat ran."`, from the
empty dictionary (local buffer of 1025 bytes), the worker loop ends and `print_dict` writes
exactly the seven lines `[1] The`, `[2] cat`, `[1] mat`, `[1] on`, `[1] ran`, `[1] sat`,
`[2] the`, in this order. -/
theorem end_to_end_example (buf : List Nat) (hb : buf.length = 1025) :
    ∃ d, words_dict [] buf (bytes "the cat sat on the mat. The cat ran.") = some d ∧
      d = [⟨bytes "The", 1⟩, ⟨bytes "cat", 2⟩, ⟨bytes "mat", 1⟩, ⟨bytes "on", 1⟩,
        ⟨bytes "ran", 1⟩, ⟨bytes "sat", 1⟩, ⟨bytes "the", 2⟩] ∧
      print_dict_out d =
        [bytes "[1] The\n", bytes "[2] cat\n", bytes "[1] mat\n", bytes "[1] on\n",
          bytes "[1] ran\n", bytes "[1] sat\n", bytes "[2] the\n"] := by
  have hr : alpha_runs (bytes "the cat sat on the mat. The cat ran.") =
      [bytes "the", bytes "cat", bytes "sat", bytes "on", bytes "the", bytes "mat",
        bytes "The", bytes "cat", bytes "ran"] := by decide
  have h := words_dict_runs [] buf (bytes "the cat sat on the mat. The cat ran.")
    (by rw [hb]; decide) (by rw [hr]; decide)
  rw [hr] at h
  have hd : insert_all [] (List.map (List.take MAXWORD)
      [bytes "the", bytes "cat", bytes "sat", bytes "on", bytes "the", bytes "mat",
        bytes "The", bytes "cat", bytes "ran"]) =
      [⟨bytes "The", 1⟩, ⟨bytes "cat", 2⟩, ⟨bytes "mat", 1⟩, ⟨bytes "on", 1⟩,
        ⟨bytes "ran", 1⟩, ⟨bytes "sat", 1⟩, ⟨bytes "the", 2⟩] := by decide
  rw [hd] at h
  exact ⟨_, h, rfl, by decide⟩

theorem end_to_end_example_witness :
    (List.replicate 1025 0).length = 1025 ∧
      ∃ d, words_dict [] (List.replicate 1025 0) (bytes "the cat sat on the mat. The cat ran.") =
          some d ∧
        d = [⟨bytes "The", 1⟩, ⟨bytes "cat", 2⟩, ⟨bytes "mat", 1⟩, ⟨bytes "on", 1⟩,
          ⟨bytes "ran", 1⟩, ⟨bytes "sat", 1⟩, ⟨bytes "the", 2⟩] ∧
        print_dict_out d =
          [bytes "[1] The\n", bytes "[2] cat\n", bytes "[1] mat\n", bytes "[1] on\n",
            bytes "[1] ran\n", bytes "[1] sat\n", bytes "[2] the\n"] :=
  ⟨List.length_replicate _ _, end_to_end_example _ (List.length_replicate _ _)⟩

/-- C12. Case sensitivity: the word that `get_word` returns is a block of consecutive bytes of
the stream, unchanged; and on a dictionary whose words are strictly increasing and which holds
a word `w1`, `insert_word` of a word `w` that differs from `w1` only in the case of some
letters leaves the entry and the count of `w1` as they were, and either creates the entry
`(w, 1)` or applies the increment to the existing entry for `w` (giving its count plus 1
whenever that is an `int`). The input `"The the The"` yields `("The", 2)` and `("the", 1)`. -/
theorem case_sensitivity :
    (∀ (buf s : List Nat), 1024 < buf.length → (get_word buf 1024 s).1 ≠ 0 →
        c_str (get_word buf 1024 s).2.1 <:+: s) ∧
      (∀ (d : Dict) (w w1 : List Nat) (e1 : dict_t), dict_sorted d → e1 ∈ d → e1.word = w1 →
        case_variant w w1 →
        e1 ∈ insert_word d w ∧
        dict_lookup (insert_word d w) w1 = some e1.count ∧
        ((dict_lookup d w = none ∧ dict_lookup (insert_word d w) w = some 1) ∨
          ∃ c, dict_lookup d w = some c ∧
            dict_lookup (insert_word d w) w = some (int_wrap (c + 1)) ∧
            (-2147483648 ≤ c → c < INT_MAX →
              dict_lookup (insert_word d w) w = some (c + 1)))) ∧
      ∀ buf : List Nat, buf.length = 1025 →
        words_dict [] buf (bytes "The the The") = some [⟨bytes "The", 2⟩, ⟨bytes "the", 1⟩] := by
  refine ⟨?_, ?_, ?_⟩
  · intro buf s hb h
    have := get_word_infix 1024 (by decide) buf s hb
    simp only [Nat.cast_ofNat] at this
    exact this h
  · intro d w w1 e1 hs he1 hw1 hcv
    have hne : w1 ≠ w := fun h => hcv.1 h.symm
    have hl1 : dict_lookup d w1 = some e1.count := hw1 ▸ dict_lookup_of_mem hs he1
    have hl1a : dict_lookup (insert_word d w) w1 = some e1.count := by
      rw [dict_lookup_insert_word w w1 hs, if_neg hne, hl1]
    have hs1 := insert_word_sorted w hs
    refine ⟨?_, hl1a, ?_⟩
    · exact mem_insert_word_of_ne he1 (by rw [hw1]; exact hne)
    · have hl := dict_lookup_insert_word w w hs
      rw [if_pos rfl] at hl
      cases hd : dict_lookup d w with
      | none =>
        left
        rw [hd] at hl
        exact ⟨rfl, hl⟩
      | some c =>
        right
        rw [hd] at hl
        refine ⟨c, rfl, hl, fun h1 h2 => ?_⟩
        rw [hl]
        simp only [bump_count]
        rw [int_wrap_of_range (by omega) (by unfold INT_MAX at h2; omega)]
  · intro buf hb
    have hr : alpha_runs (bytes "The the The") = [bytes "The", bytes "the", bytes "The"] := by
      decide
    have h := words_dict_runs [] buf (bytes "The the The") (by rw [hb]; decide)
      (by rw [hr]; decide)
    rw [hr] at h
    rw [h]
    decide

theorem case_sensitivity_witness :
    dict_sorted [⟨bytes "The", 2⟩] ∧ case_variant (bytes "the") (bytes "The") ∧
      dict_lookup (insert_word [⟨bytes "The", 2⟩] (bytes "the")) (bytes "The") = some 2 :=
  ⟨by decide, by decide,
    (case_sensitivity.2.1 [⟨bytes "The", 2⟩] (bytes "the") (bytes "The") ⟨bytes "The", 2⟩
      (by decide) (by decide) rfl (by decide)).2.1⟩

/-- C13. Empty input: on a stream that is empty or holds only non-alphabetic characters, the
first `get_word` call of the worker reports end-of-stream; the worker makes that one call and
no `insert_word` call (its only events are those of `mymalloc` and of one `get_word`); the
dictionary stays as it was, so an empty dictionary stays empty, and `print_dict` reports no
line. -/
theorem empty_input (sd : Dict) (buf s : List Nat) (h : ∀ c ∈ s, isalpha c = false) :
    (get_word buf MAXWORD s).1 = 0 ∧
      words_tr sd buf s = some ((sd, buf, []),
        mymalloc_tr ++ [event_t.lock mutex_t.gw_mutex, event_t.unlock mutex_t.gw_mutex]) ∧
      words sd buf s = some (sd, buf, []) ∧
      words_dict [] buf s = some [] ∧
      print_dict [] = [] ∧ print_dict_out [] = [] := by
  have h0 := get_word_none MAXWORD buf s (by decide) h
  have hw : words sd buf s = some (sd, buf, []) := words_loop_done _ sd buf s h
  refine ⟨by rw [h0], ?_, hw, ?_, rfl, rfl⟩
  · unfold words_tr
    have h1 : (get_word_tr buf MAXWORD s).1 = (0, buf, []) := by
      rw [get_word_tr_fst, h0]
    have h2 : (get_word_tr buf MAXWORD s).2 =
        [event_t.lock mutex_t.gw_mutex, event_t.unlock mutex_t.gw_mutex] := by
      unfold get_word_tr
      rw [get_word_loop_tr_sep _ buf s h]
    simp only [words_loop_tr, h1, h2]
    rfl
  · unfold words_dict
    have hw0 : words [] buf s = some ([], buf, []) := words_loop_done _ [] buf s h
    rw [hw0]
    rfl

theorem empty_input_witness :
    (∀ c ∈ [46, 32, 33, 10], isalpha c = false) ∧
      words_dict [] (List.replicate 1025 0) [46, 32, 33, 10] = some [] :=
  ⟨by decide, (empty_input [] (List.replicate 1025 0) [46, 32, 33, 10] (by decide)).2.2.2.1⟩

/-- C14. Atomic upsert under concurrency: threads that each make a sequence of `insert_word`
calls on the same shared dictionary, scheduled in any way, one step at a time (taking the
mutex, one test of the search loop, the update, releasing the mutex). At every moment at
most one thread is inside `insert_word`, and none when the mutex is free. When all the calls
have returned, the list is the result of the same calls made one after the other in some
order; its words stay strictly increasing, so that no word has two entries, and starting
from the empty list the count of each word is the number of the calls for it (as an `int`),
so that no increment is lost. -/
theorem atomic_upsert (d0 : Dict) (calls : List (List (List Nat))) (sched : List Nat) :
    ((sys_run (sys_init d0 calls) sched).threads.filter
        (fun th => decide (th.pc ≠ pc_t.idle))).length ≤ 1 ∧
      ((sys_run (sys_init d0 calls) sched).sd.locked = false →
        ∀ th ∈ (sys_run (sys_init d0 calls) sched).threads, th.pc = pc_t.idle) ∧
      (sys_done (sys_run (sys_init d0 calls) sched) →
        (∃ ws : List (List Nat), ws.Perm calls.flatten ∧
          (sys_run (sys_init d0 calls) sched).sd.wd = insert_all d0 ws) ∧
        (sys_run (sys_init d0 calls) sched).sd.locked = false ∧
        (dict_sorted d0 → dict_sorted (sys_run (sys_init d0 calls) sched).sd.wd) ∧
        (d0 = [] →
          (sys_run (sys_init d0 calls) sched).sd.wd = insert_all [] calls.flatten ∧
          ∀ w, dict_lookup (sys_run (sys_init d0 calls) sched).sd.wd w =
            if calls.flatten.count w = 0 then none
            else some (int_wrap (calls.flatten.count w : Int)))) := by
  have hinv := sys_run_inv d0 calls.flatten sched _ (sys_init_inv d0 calls)
  obtain ⟨h1, h2⟩ := sys_inv_exclusion hinv
  refine ⟨h1, h2, fun hdone => ?_⟩
  obtain ⟨ws, hperm, hwd, hfree⟩ := sys_done_linear d0 calls sched hdone
  refine ⟨⟨ws, hperm, hwd⟩, hfree, ?_, ?_⟩
  · intro hs
    rw [hwd]
    exact insert_all_sorted ws hs
  · intro h0
    subst h0
    have hlook : ∀ w, dict_lookup (insert_all [] ws) w =
        if calls.flatten.count w = 0 then none
        else some (int_wrap (calls.flatten.count w : Int)) :=
      dict_lookup_insert_all_perm ws _ hperm
    have heq : insert_all [] ws = insert_all [] calls.flatten := by
      apply dict_sorted_ext (insert_all_sorted ws dict_sorted_nil)
        (insert_all_sorted _ dict_sorted_nil)
      intro w
      rw [hlook w, dict_lookup_insert_all]
    rw [hwd]
    exact ⟨heq, hlook⟩

theorem atomic_upsert_witness :
    sys_done (sys_run (sys_init [] [[[98], [97]], [[97]]]) [0, 1, 0, 0, 1, 0, 1, 1, 1, 1, 0, 0, 0, 0])
      ∧ (sys_run (sys_init [] [[[98], [97]], [[97]]])
          [0, 1, 0, 0, 1, 0, 1, 1, 1, 1, 0, 0, 0, 0]).sd.wd =
        insert_all [] [[98], [97], [97]] :=
  ⟨by decide,
    (((atomic_upsert [] [[[98], [97]], [[97]]] [0, 1, 0, 0, 1, 0, 1, 1, 1, 1, 0, 0, 0, 0]).2.2
      (by decide)).2.2.2 rfl).1⟩

/-- C15. No nesting of the tokenizer lock and the dictionary lock: `get_word` takes `gw_mutex`
first, releases it as its last action on every return path and touches no other mutex;
`insert_word` takes the dictionary lock first and releases it as its last action on every
return path, only `mm_mutex` (in `mymalloc`) being taken in between; and the worker ends, and
at every point of its sequence of events it holds at most one of `gw_mutex` and the
dictionary lock, and none of them at the end. -/
theorem no_lock_nesting :
    (∀ (buf : List Nat) (n : Int) (s : List Nat),
        mutex_events (get_word_tr buf n s).2 =
          [event_t.lock mutex_t.gw_mutex, event_t.unlock mutex_t.gw_mutex] ∧
        (get_word_tr buf n s).2.head? = some (event_t.lock mutex_t.gw_mutex) ∧
        (get_word_tr buf n s).2.getLast? = some (event_t.unlock mutex_t.gw_mutex)) ∧
      (∀ (d : Dict) (w : List Nat),
        (insert_word_tr d w).2 =
            [event_t.lock mutex_t.sd_lock, event_t.unlock mutex_t.sd_lock] ∨
          (insert_word_tr d w).2 =
            [event_t.lock mutex_t.sd_lock,
              event_t.lock mutex_t.mm_mutex, event_t.unlock mutex_t.mm_mutex,
              event_t.lock mutex_t.mm_mutex, event_t.unlock mutex_t.mm_mutex,
              event_t.unlock mutex_t.sd_lock]) ∧
      ∀ (sd : Dict) (buf s : List Nat),
        ∃ r tr, words_tr sd buf s = some (r, tr) ∧
          (∀ p, p <+: tr →
            ¬ (holds mutex_t.gw_mutex p = true ∧ holds mutex_t.sd_lock p = true)) ∧
          holds mutex_t.gw_mutex tr = false ∧ holds mutex_t.sd_lock tr = false := by
  refine ⟨?_, ?_, ?_⟩
  · intro buf n s
    obtain ⟨h1, h2⟩ := get_word_loop_tr_events n s 0 buf
    refine ⟨?_, rfl, ?_⟩
    · unfold get_word_tr
      simp only [mutex_events, List.filter_cons] at h1 ⊢
      rw [h1]
      rfl
    · unfold get_word_tr
      rw [List.getLast?_cons, h2]; rfl
  · intro d w
    unfold insert_word_tr
    rcases insert_word_loop_tr_events d w with h | h
    · left; rw [h]
    · right; rw [h]; rfl
  · intro sd buf s
    obtain ⟨q, hq⟩ := words_tr_total sd buf s
    obtain ⟨h1, h2, h3⟩ := words_tr_nest sd buf s q hq
    exact ⟨q.1, q.2, hq, fun p hp => nest_free_prefix q.2 false false h1 p hp, h2, h3⟩

theorem no_lock_nesting_witness :
    ∃ r tr, words_tr [] (List.replicate 6 0) (bytes "ab ab c.") = some (r, tr) ∧
      ¬ (holds mutex_t.gw_mutex [] = true ∧ holds mutex_t.sd_lock [] = true) ∧
      holds mutex_t.gw_mutex tr = false ∧ holds mutex_t.sd_lock tr = false :=
  match no_lock_nesting.2.2 [] (List.replicate 6 0) (bytes "ab ab c.") with
  | ⟨r, tr, h, h1, h2, h3⟩ => ⟨r, tr, h, h1 [] (List.nil_prefix), h2, h3⟩

/-- C16. The worker runs to completion: every `get_word` call that returns a word leaves a
strictly shorter stream; so on every stream the worker loop ends within one iteration for
each character and one more, with the stream exhausted; and one `insert_word` call, stepped
through on its own, returns after at most one step for each node of the list and three
more. -/
theorem worker_terminates :
    (∀ (buf s : List Nat) (n : Int), (get_word buf n s).1 ≠ 0 →
        (get_word buf n s).2.2.length < s.length) ∧
      (∀ (sd : Dict) (buf s : List Nat) (fuel : Nat), s.length < fuel →
        ∃ d buf1, words_loop fuel sd buf s = some (d, buf1, [])) ∧
      (∀ (sd : Dict) (buf s : List Nat), ∃ d buf1, words sd buf s = some (d, buf1, [])) ∧
      ∀ (d : Dict) (w : List Nat),
        sys_run (sys_init d [[w]]) (List.replicate (d.length + 3) 0) =
          (⟨⟨false, insert_word d w⟩, [⟨pc_t.idle, []⟩]⟩ : sys_t) := by
  have hloop : ∀ (sd : Dict) (buf s : List Nat) (fuel : Nat), s.length < fuel →
      ∃ d buf1, words_loop fuel sd buf s = some (d, buf1, []) := by
    intro sd buf s fuel hf
    obtain ⟨r, hr⟩ := words_loop_total fuel s sd buf hf
    have h0 := words_loop_rest fuel sd buf s r hr
    refine ⟨r.1, r.2.1, ?_⟩
    rw [hr, ← h0]
  exact ⟨fun buf s n h => get_word_consumes n buf s h, hloop,
    fun sd buf s => hloop sd buf s _ (Nat.lt_succ_self _), sys_run_single⟩

theorem worker_terminates_witness :
    (get_word [0, 0, 0] 2 (bytes " ab c")).1 ≠ 0 ∧
      (get_word [0, 0, 0] 2 (bytes " ab c")).2.2.length < (bytes " ab c").length :=
  ⟨by decide, worker_terminates.1 [0, 0, 0] (bytes " ab c") 2 (by decide)⟩

/-- C17. Allocation failure is fatal: in `insert_word` of an absent word, when `mymalloc`
returns `NULL` for the node in `make_dict` or for the copy of the word in `make_word`, the
call ends with the process killed by the store through the null pointer: it does not return
to the worker loop, each of the two allocations has been asked for once and none again, and
the shared list is the one before the call. When both allocations give memory the call
returns, with the list that `insert_word` gives. -/
theorem alloc_failure (d : Dict) (w : List Nat) (mem : List Bool)
    (ha : ∀ e ∈ d, e.word ≠ w) :
    (mem.head? = some false ∨ (mem.drop 1).head? = some false →
        (insert_word_res d w mem).1 = outcome_t.killed ∧
        (insert_word_res d w mem).2.1 = d ∧
        (insert_word_res d w mem).2.2 = mem.drop 2) ∧
      (mem.head? ≠ some false ∧ (mem.drop 1).head? ≠ some false →
        (insert_word_res d w mem).1 = outcome_t.returns () ∧
        (insert_word_res d w mem).2.1 = insert_word d w ∧
        (insert_word_res d w mem).2.2 = mem.drop 2) := by
  refine ⟨fun hfail => ?_, fun hok => ?_⟩
  · rw [insert_word_res_absent d w mem ha, make_dict_res_fail w mem hfail]
    exact ⟨rfl, rfl, rfl⟩
  · rw [insert_word_res_absent d w mem ha, make_dict_res_ok w mem hok,
      insert_word_splice d w ha]
    exact ⟨rfl, rfl, rfl⟩

theorem alloc_failure_witness :
    (∀ e ∈ [(⟨bytes "b", 1⟩ : dict_t)], e.word ≠ bytes "a") ∧
      insert_word_res [⟨bytes "b", 1⟩] (bytes "a") [false] =
        (outcome_t.killed, [⟨bytes "b", 1⟩], []) ∧
      insert_word_res [⟨bytes "b", 1⟩] (bytes "a") [true, false, true] =
        (outcome_t.killed, [⟨bytes "b", 1⟩], [true]) ∧
      (insert_word_res [⟨bytes "b", 1⟩] (bytes "a") [true, true]).2.1 =
        insert_word [⟨bytes "b", 1⟩] (bytes "a") := by
  have h1 := (alloc_failure [⟨bytes "b", 1⟩] (bytes "a") [false] (by decide)).1 (by decide)
  have h2 := (alloc_failure [⟨bytes "b", 1⟩] (bytes "a") [true, false, true]
    (by decide)).1 (by decide)
  have h3 := (alloc_failure [⟨bytes "b", 1⟩] (bytes "a") [true, true] (by decide)).2 (by decide)
  exact ⟨by decide, Prod.ext h1.1 (Prod.ext h1.2.1 h1.2.2),
    Prod.ext h2.1 (Prod.ext h2.2.1 h2.2.2), h3.2.1⟩

/-- C18. Characters consumed by one `get_word` call that returns a word (cap `n ≥ 1`, buffer
with room for `n + 1` bytes): the stream is a block of non-alphabetic characters, then the
returned word, then a remainder, and the call leaves the remainder less its first character,
if it has one. That character is not a letter when the word is shorter than `n`; when the
word has `n` letters it is whatever follows the `n`-th letter. So on a run of more than
`n + 1` letters the call returns the first `n` letters and the next call starts at letter
`n + 2` of the run. -/
theorem get_word_consumption (n : Nat) (hn : 1 ≤ n) (buf : List Nat) (hb : n < buf.length) :
    (∀ s : List Nat, (get_word buf (n : Int) s).1 ≠ 0 →
        ∃ sep rest, s = sep ++ c_str (get_word buf (n : Int) s).2.1 ++ rest ∧
          (∀ c ∈ sep, isalpha c = false) ∧
          (get_word buf (n : Int) s).2.2 = rest.tail ∧
          (get_word buf (n : Int) s).2.2 =
            s.drop (sep.length + (c_str (get_word buf (n : Int) s).2.1).length + 1) ∧
          ((c_str (get_word buf (n : Int) s).2.1).length = n ∨ rest = [] ∨
            ∃ c r, rest = c :: r ∧ isalpha c = false)) ∧
      ∀ sep run rest : List Nat, (∀ c ∈ sep, isalpha c = false) →
        (∀ c ∈ run, isalpha c = true) → n + 1 < run.length →
        (get_word buf (n : Int) (sep ++ run ++ rest)).1 = 1 ∧
        c_str (get_word buf (n : Int) (sep ++ run ++ rest)).2.1 = run.take n ∧
        (get_word buf (n : Int) (sep ++ run ++ rest)).2.2 = run.drop (n + 1) ++ rest := by
  constructor
  · intro s h
    obtain ⟨sep, rest, hs, hsep, hr, hc⟩ := get_word_rest n hn buf s hb h
    refine ⟨sep, rest, hs, hsep, hr, ?_, hc⟩
    rw [hr]
    exact tail_eq_drop sep _ rest s hs
  · intro sep run rest hsep hrun hlen
    have htl : (run.take n).length = n := by rw [List.length_take]; omega
    have hw : ∀ c ∈ run.take n, isalpha c = true :=
      fun c hc => hrun c (List.mem_of_mem_take hc)
    have hg := get_word_run n buf sep (run.take n) (run.drop n ++ rest) hn hb hsep hw
      (by intro h0; rw [h0] at htl; simp at htl; omega) (by omega) (Or.inl htl)
    rw [← append_split n sep run rest] at hg
    rw [hg]
    refine ⟨rfl, c_str_append_zero _ _ hw, ?_⟩
    have hdne : run.drop n ≠ [] := by
      intro h0
      have := congrArg List.length h0
      rw [List.length_drop] at this; simp at this; omega
    show (run.drop n ++ rest).tail = run.drop (n + 1) ++ rest
    rw [List.tail_append_of_ne_nil hdne, List.tail_drop]

theorem get_word_consumption_witness :
    1 ≤ 2 ∧ 2 < [0, 0, 0].length ∧
      (get_word [0, 0, 0] ((2 : Nat) : Int) ([32] ++ bytes "abcdef" ++ bytes " x")).1 = 1 ∧
      c_str (get_word [0, 0, 0] ((2 : Nat) : Int) ([32] ++ bytes "abcdef" ++ bytes " x")).2.1 =
        (bytes "abcdef").take 2 ∧
      (get_word [0, 0, 0] ((2 : Nat) : Int) ([32] ++ bytes "abcdef" ++ bytes " x")).2.2 =
        (bytes "abcdef").drop (2 + 1) ++ bytes " x" :=
  ⟨by decide, by decide,
    (get_word_consumption 2 (by decide) [0, 0, 0] (by decide)).2 [32] (bytes "abcdef")
      (bytes " x") (by decide) (by decide) (by decide)⟩

/-- C19. Buffer bound of the tokenizer: for every stream and every cap `n ≥ 1`, each store
`buf[i] = c` of `get_word` has `i ≤ n`; a store of a non-zero byte is the store of a letter at
an index of at most `n - 1`, the others are the terminator; the buffer that `get_word` leaves
is the result of these stores. So a buffer of more than `n` bytes, as the `MAXWORD + 1` bytes
of the worker with `n = MAXWORD`, is never overrun, and a returned word has between 1 and `n`
characters, all alphabetic. -/
theorem get_word_buffer_bound (n : Int) (hn : 1 ≤ n) (buf s : List Nat) :
    (∀ p ∈ stores (get_word_tr buf n s).2,
        (p.1 : Int) ≤ n ∧ (p.2 ≠ 0 → (p.1 : Int) ≤ n - 1 ∧ isalpha p.2 = true)) ∧
      (get_word buf n s).2.1 = apply_stores buf (stores (get_word_tr buf n s).2) ∧
      (n < buf.length →
        (∀ p ∈ stores (get_word_tr buf n s).2, p.1 < buf.length) ∧
        ((get_word buf n s).1 ≠ 0 →
          1 ≤ (c_str (get_word buf n s).2.1).length ∧
          ((c_str (get_word buf n s).2.1).length : Int) ≤ n ∧
          ∀ c ∈ c_str (get_word buf n s).2.1, isalpha c = true)) ∧
      (n = MAXWORD → buf.length = MAXWORD + 1 →
        ∀ p ∈ stores (get_word_tr buf n s).2, p.1 < buf.length) := by
  obtain ⟨h1, h2⟩ := get_word_loop_tr_stores n s 0 buf (by push_cast; omega)
  have hst : stores (get_word_tr buf n s).2 = stores (get_word_loop_tr n 0 buf s).2 := rfl
  have hbound : ∀ p ∈ stores (get_word_tr buf n s).2,
      (p.1 : Int) ≤ n ∧ (p.2 ≠ 0 → (p.1 : Int) ≤ n - 1 ∧ isalpha p.2 = true) := by
    intro p hp
    rw [hst] at hp
    obtain ⟨_, a, b⟩ := h1 p hp
    exact ⟨a, fun h0 => ⟨by have := (b h0).1; omega, (b h0).2⟩⟩
  refine ⟨hbound, ?_, ?_, ?_⟩
  · rw [hst, ← h2, get_word_loop_tr_fst]
    rfl
  · intro hb
    refine ⟨fun p hp => ?_, fun hr => ?_⟩
    · have := (hbound p hp).1
      omega
    · obtain ⟨m, rfl⟩ : ∃ m : Nat, n = (m : Int) :=
        ⟨n.toNat, (Int.toNat_of_nonneg (by omega)).symm⟩
      obtain ⟨a, b, c⟩ := get_word_word_bounds m (by exact_mod_cast hn) buf s
        (by exact_mod_cast hb) hr
      exact ⟨a, by exact_mod_cast b, c⟩
  · intro hM hb p hp
    have := (hbound p hp).1
    rw [hM] at this
    have h3 : p.1 ≤ MAXWORD := by exact_mod_cast this
    omega

theorem get_word_buffer_bound_witness :
    (1 : Int) ≤ 3 ∧
      ∀ p ∈ stores (get_word_tr [7, 7, 7, 7] 3 (bytes " abcdef x")).2,
        (p.1 : Int) ≤ 3 ∧ (p.2 ≠ 0 → (p.1 : Int) ≤ 3 - 1 ∧ isalpha p.2 = true) :=
  ⟨by decide, (get_word_buffer_bound 3 (by decide) [7, 7, 7, 7] (bytes " abcdef x")).1⟩

end PWords
